import Mathlib

/-!
IntervalMap.

A verification development for `IntervalMap<Key, Value>` (`IntervalMap.h`).

The class keeps a `startValue` and a `std::map<Key, Value>` of breakpoints.
The ordered container is embedded as the list of its entries in iteration
order; an iterator is a position in that list (`0` is `begin()`, the length
of the list is `end()`).  Every iterator step and dereference returns an
`Option`: `none` stands for stepping before `begin()`, stepping past `end()`
or dereferencing `end()`.  An insertion or an erasure moves the positions of
the entries behind it, so the iterators that the source keeps alive across
such a call are re-indexed explicitly (`afterInsert`, `afterErase`).
The pointer `lastValue` is embedded as the value it points to: the source
never writes to the pointee between taking the address and reading it.
-/

/-- The state of an `IntervalMap<Key, Value>` object: the two data members. -/
structure IntervalMap (K V : Type) where
  startValue : V
  intervals : List (K × V)
deriving DecidableEq

namespace IntervalMap

variable {K V : Type}

/-- The constructor `IntervalMap(initialValue)`: the container starts empty. -/
def new (initialValue : V) : IntervalMap K V :=
  { startValue := initialValue, intervals := [] }

section Container

variable [LinearOrder K]

/-- The iterator returned by `std::map::lower_bound`: the position of the first
entry whose key is not less than `k`, or `end()`. -/
def lower_bound : List (K × V) → K → Nat
  | [], _ => 0
  | e :: rest, k => if e.1 < k then lower_bound rest k + 1 else 0

/-- The iterator returned by `std::map::upper_bound`: the position of the first
entry whose key is greater than `k`, or `end()`. -/
def upper_bound : List (K × V) → K → Nat
  | [], _ => 0
  | e :: rest, k => if k < e.1 then 0 else upper_bound rest k + 1

/-- The step `--it`; stepping back from `begin()` is undefined. -/
def prev (it : Nat) : Option Nat :=
  if it = 0 then none else some (it - 1)

/-- The step `++it`; stepping past `end()` is undefined. -/
def next (ivs : List (K × V)) (it : Nat) : Option Nat :=
  if it < ivs.length then some (it + 1) else none

/-- The calls `std::map::emplace_hint(hint, k, v)` and `emplace(k, v)`: when no
entry has key `k` a new entry is inserted at its place in key order, otherwise
the container is left alone.  The result is the container, the iterator to the
entry with key `k`, and whether an entry was inserted.  The hint has no
influence on the outcome. -/
def emplace_hint (ivs : List (K × V)) (_hint : Nat) (k : K) (v : V) :
    List (K × V) × Nat × Bool :=
  let p := lower_bound ivs k
  match ivs[p]? with
  | some e =>
    if k < e.1 then (ivs.take p ++ (k, v) :: ivs.drop p, p, true) else (ivs, p, false)
  | none => (ivs.take p ++ (k, v) :: ivs.drop p, p, true)

/-- The position, after an insertion at position `p`, of the entry that an
iterator `j` referred to before it. -/
def afterInsert (p : Nat) (inserted : Bool) (j : Nat) : Nat :=
  if inserted = true ∧ p ≤ j then j + 1 else j

/-- The position, after `erase` at position `b`, of the entry (or `end()`) that
an iterator `j` referred to before it. -/
def afterErase (b : Nat) (j : Nat) : Nat :=
  if b < j then j - 1 else j

end Container

section Operations

variable [LinearOrder K] [DecidableEq V]

/-- Lines 77-102 of `set`: the left boundary.  The result is the container,
`it`, `lastValue`, `assignBegin` and `keepBegin`. -/
def setLeft (startValue : V) (ivs : List (K × V)) (it : Nat) (kfrom : K) (value : V) :
    Option (List (K × V) × Nat × V × Bool × Bool) :=
  if it ≠ 0 then do
    let previous ← prev it
    let p ← ivs[previous]?
    if p.2 = value then
      some (ivs, previous, value, false, true)
    else do
      let e ← ivs[it]?
      if kfrom < e.1 then
        let r := emplace_hint ivs it kfrom value
        let p1 ← r.1[afterInsert r.2.1 r.2.2 previous]?
        some (r.1, r.2.1, p1.2, false, true)
      else
        some (ivs, it, e.2, true, true)
  else if ¬ value = startValue then do
    let e ← ivs[it]?
    if kfrom < e.1 then
      let r := emplace_hint ivs it kfrom value
      some (r.1, r.2.1, startValue, false, true)
    else
      some (ivs, it, e.2, true, true)
  else
    some (ivs, it, startValue, false, false)

/-- Lines 106-108 of `set`: the loop that walks `it` over the entries with a key
below `to`, keeping the value of the last one passed. -/
def scanLoop (fuel : Nat) (ivs : List (K × V)) (kto : K) (it : Nat) (lastValue : V) :
    Option (Nat × V) :=
  match fuel with
  | 0 => none
  | n + 1 =>
    if it = ivs.length then some (it, lastValue)
    else do
      let e ← ivs[it]?
      if e.1 < kto then scanLoop n ivs kto (it + 1) e.2 else some (it, lastValue)

/-- Lines 122-126 of `set`: the loop that erases the entries from `begin` up to,
not including, `it`. -/
def eraseLoop (fuel : Nat) (ivs : List (K × V)) (begin it : Nat) : Option (List (K × V)) :=
  match fuel with
  | 0 => none
  | n + 1 =>
    if begin = it then some ivs
    else do
      let nxt ← next ivs begin
      eraseLoop n (ivs.eraseIdx begin) (afterErase begin nxt) (afterErase begin it)

/-- Lines 110-118 of `set`: the right boundary.  The result is the container,
`it` and `begin`. -/
def setBoundary (ivs : List (K × V)) (it begin : Nat) (lastValue : V) (kto : K) (value : V) :
    Option (List (K × V) × Nat × Nat) :=
  if it = ivs.length then
    if ¬ lastValue = value then
      let r := emplace_hint ivs it kto lastValue
      some (r.1, r.2.1, afterInsert r.2.1 r.2.2 begin)
    else some (ivs, it, begin)
  else do
    let e ← ivs[it]?
    if kto < e.1 then
      if ¬ lastValue = value then
        let r := emplace_hint ivs it kto lastValue
        some (r.1, r.2.1, afterInsert r.2.1 r.2.2 begin)
      else some (ivs, it, begin)
    else if ¬ e.1 < kto then
      if value = e.2 then do
        let it1 ← next ivs it
        some (ivs, it1, begin)
      else some (ivs, it, begin)
    else some (ivs, it, begin)

/-- Lines 120-126 of `set`: the assignment to the left boundary and the erasure
of the entries from `begin` up to `it`. -/
def setErase (ivs : List (K × V)) (begin it : Nat) (assignBegin keepBegin : Bool) (value : V) :
    Option (List (K × V)) := do
  let ivs ←
    if assignBegin then do
      let b ← ivs[begin]?
      some (ivs.set begin (b.1, value))
    else some ivs
  let begin ← if keepBegin then next ivs begin else some begin
  eraseLoop (ivs.length + 1) ivs begin it

/-- Lines 104-126 of `set`: the scan, the right boundary, the assignment to the
left boundary and the erasure. -/
def setRight (ivs : List (K × V)) (it : Nat) (lastValue : V) (assignBegin keepBegin : Bool)
    (kto : K) (value : V) : Option (List (K × V)) := do
  let begin := it
  let it ← if keepBegin then next ivs it else some it
  let s ← scanLoop (ivs.length + 1) ivs kto it lastValue
  let r ← setBoundary ivs s.1 begin s.2 kto value
  setErase r.1 r.2.2 r.2.1 assignBegin keepBegin value

/-- The member function `IntervalMap::set(from, to, value)`. -/
def set (m : IntervalMap K V) (kfrom kto : K) (value : V) : Option (IntervalMap K V) :=
  if kfrom < kto ∧ (¬ m.intervals.isEmpty = true ∨ ¬ value = m.startValue) then
    if m.intervals.isEmpty then
      let r := emplace_hint m.intervals 0 kto m.startValue
      let r2 := emplace_hint r.1 r.2.1 kfrom value
      some { m with intervals := r2.1 }
    else
      let it := lower_bound m.intervals kfrom
      if it = m.intervals.length then do
        let previous ← prev it
        let p ← m.intervals[previous]?
        if ¬ p.2 = value then
          let r := emplace_hint m.intervals it kto p.2
          let r2 := emplace_hint r.1 r.2.1 kfrom value
          some { m with intervals := r2.1 }
        else some m
      else do
        let l ← setLeft m.startValue m.intervals it kfrom value
        let ivs ← setRight l.1 l.2.1 l.2.2.1 l.2.2.2.1 l.2.2.2.2 kto value
        some { m with intervals := ivs }
  else some m

/-- The member function `IntervalMap::get(key)`. -/
def get (m : IntervalMap K V) (key : K) : Option V :=
  let it := upper_bound m.intervals key
  if it = 0 then some m.startValue
  else do
    let it1 ← prev it
    let e ← m.intervals[it1]?
    some e.2

end Operations

section Shape

variable [LinearOrder K] [DecidableEq V]

/-- The value of the last entry of a run of entries, or `v0` for an empty run. -/
def lastVal (v0 : V) : List (K × V) → V
  | [] => v0
  | e :: rest => lastVal e.2 rest

/-- The entries `set` leaves at the left boundary, `lv` being the value in
effect just left of `from`. -/
def leftPart (lv : V) (kfrom : K) (value : V) : List (K × V) :=
  if lv = value then [] else [(kfrom, value)]

/-- The entries `set` leaves from the right boundary on, `tv` being the value
in effect just left of `to` and the argument the entries with key not below `to`. -/
def rightPart (tv : V) (kto : K) (value : V) : List (K × V) → List (K × V)
  | [] => if tv = value then [] else [(kto, tv)]
  | r :: rest =>
    if kto < r.1 then (if tv = value then r :: rest else (kto, tv) :: r :: rest)
    else (if value = r.2 then rest else r :: rest)

/-- The entries in front of the first entry whose key is not below `k`. -/
def below (k : K) : List (K × V) → List (K × V)
  | [] => []
  | e :: rest => if e.1 < k then e :: below k rest else []

/-- The entries from the first entry whose key is not below `k` on. -/
def notBelow (k : K) : List (K × V) → List (K × V)
  | [] => []
  | e :: rest => if e.1 < k then notBelow k rest else e :: rest

/-- The container after `set(from, to, value)` with `from < to`, written as
the three stretches of the old container around the range. -/
def assigned (startValue : V) (ivs : List (K × V)) (kfrom kto : K) (value : V) :
    List (K × V) :=
  let lv := lastVal startValue (below kfrom ivs)
  below kfrom ivs ++ leftPart lv kfrom value ++
    rightPart (lastVal lv (below kto (notBelow kfrom ivs))) kto value
      (notBelow kto (notBelow kfrom ivs))

end Shape

section Properties

variable [LinearOrder K] [DecidableEq V]

/-- The value in effect at key `k` when `v0` is in effect in front of the
entries: the value of the last entry in front of the first entry whose key is
greater than `k`. -/
def valueAt (v0 : V) : List (K × V) → K → V
  | [], _ => v0
  | e :: rest, k => if k < e.1 then v0 else valueAt e.2 rest k

/-- The keys of the container are strictly increasing, as `std::map` keeps them. -/
def KeySorted (ivs : List (K × V)) : Prop :=
  ivs.Pairwise (fun a b => a.1 < b.1)

/-- Canonical form of a run of entries entered with the value `v0` in effect:
the value of the first entry differs from `v0`, and the values of every two
adjacent entries differ. -/
def CanonicalFrom : V → List (K × V) → Prop
  | _, [] => True
  | v0, e :: rest => e.2 ≠ v0 ∧ CanonicalFrom e.2 rest

/-- Canonical form of a map state. -/
def Canonical (m : IntervalMap K V) : Prop :=
  CanonicalFrom m.startValue m.intervals

/-- The states reachable from `IntervalMap(initialValue)` by a sequence of
`set` calls. -/
inductive ReachableFrom (initialValue : V) : IntervalMap K V → Prop
  | construct : ReachableFrom initialValue (new initialValue)
  | set (m m1 : IntervalMap K V) (kfrom kto : K) (value : V) :
      ReachableFrom initialValue m → set m kfrom kto value = some m1 →
      ReachableFrom initialValue m1

/-- The states reachable from construction by a sequence of `set` calls. -/
def Reachable (m : IntervalMap K V) : Prop :=
  ∃ initialValue, ReachableFrom initialValue m

/-- The entry with the greatest key among the entries whose key satisfies `p`,
if there is one. -/
def greatestWith (p : K → Bool) : List (K × V) → Option (K × V)
  | [] => none
  | e :: rest =>
    match greatestWith p rest with
    | none => if p e.1 = true then some e else none
    | some g => if p e.1 = true ∧ g.1 < e.1 then some e else some g

/-- The reference definition of `get`: the value of the greatest stored
breakpoint whose key is `<= key`, or `startValue` if no stored breakpoint has
a key `<= key`. -/
def get_reference (m : IntervalMap K V) (key : K) : V :=
  match greatestWith (fun x => decide (x ≤ key)) m.intervals with
  | some g => g.2
  | none => m.startValue

/-- The value in effect immediately left of `key`: the value of the greatest
stored breakpoint whose key is `< key`, or `startValue` if there is none. -/
def valueLeftOf (m : IntervalMap K V) (key : K) : V :=
  match greatestWith (fun x => decide (x < key)) m.intervals with
  | some g => g.2
  | none => m.startValue

end Properties

section ListLemmas

theorem getElem?_at (L : List (K × V)) (a : K × V) (X : List (K × V)) (i : Nat)
    (hi : i = L.length) : (L ++ a :: X)[i]? = some a := by
  subst hi
  induction L with
  | nil => simp
  | cons b L ih => simpa using ih

theorem eraseIdx_at (L : List (K × V)) (a : K × V) (X : List (K × V)) (i : Nat)
    (hi : i = L.length) : (L ++ a :: X).eraseIdx i = L ++ X := by
  subst hi
  induction L with
  | nil => simp
  | cons b L ih => simpa using ih

theorem set_at (L : List (K × V)) (a c : K × V) (X : List (K × V)) (i : Nat)
    (hi : i = L.length) : (L ++ a :: X).set i c = L ++ c :: X := by
  subst hi
  induction L with
  | nil => simp
  | cons b L ih => simp

theorem eraseLoop_run (M : List (K × V)) : ∀ (fuel : Nat) (A R : List (K × V)) (i j : Nat),
    i = A.length → j = A.length + M.length → M.length < fuel →
    eraseLoop fuel (A ++ (M ++ R)) i j = some (A ++ R) := by
  induction M with
  | nil =>
    intro fuel A R i j hi hj hf
    cases fuel with
    | zero => simp at hf
    | succ n => subst hi hj; simp [eraseLoop]
  | cons e M ih =>
    intro fuel A R i j hi hj hf
    cases fuel with
    | zero => simp at hf
    | succ n =>
      subst hi hj
      have h := ih n A R A.length (A.length + M.length) rfl rfl (by simpa using hf)
      simp only [eraseLoop, List.cons_append, eraseIdx_at A e (M ++ R) _ rfl]
      simp [next, afterErase, h]

theorem setErase_keep (A : List (K × V)) (b : K × V) (E X : List (K × V)) (ab : Bool) (v : V)
    (i j : Nat) (hi : i = A.length) (hj : j = A.length + 1 + E.length) :
    setErase (A ++ b :: (E ++ X)) i j ab true v =
      some (A ++ (if ab = true then (b.1, v) else b) :: X) := by
  subst hi hj
  have h1 := eraseLoop_run E ((A ++ b :: (E ++ X)).length + 1) (A ++ [b]) X (A.length + 1)
    (A.length + 1 + E.length) (by simp) (by simp) (by simp; omega)
  have h2 := eraseLoop_run E ((A ++ b :: (E ++ X)).length + 1) (A ++ [(b.1, v)]) X
    (A.length + 1) (A.length + 1 + E.length) (by simp) (by simp) (by simp; omega)
  simp only [List.append_assoc, List.singleton_append] at h1 h2
  cases ab with
  | false =>
    simp only [setErase, next]
    simpa using h1
  | true =>
    simp only [setErase, next, getElem?_at A b (E ++ X) _ rfl, set_at A b _ (E ++ X) _ rfl]
    simpa using h2

theorem setErase_drop (E X : List (K × V)) (v : V) (j : Nat) (hj : j = E.length) :
    setErase (E ++ X) 0 j false false v = some X := by
  subst hj
  have h1 := eraseLoop_run E ((E ++ X).length + 1) [] X 0 E.length (by simp) (by simp)
    (by simp; omega)
  simpa [setErase] using h1

theorem lastVal_append (A B : List (K × V)) : ∀ (v0 : V),
    lastVal v0 (A ++ B) = lastVal (lastVal v0 A) B := by
  induction A with
  | nil => intro v0; simp [lastVal]
  | cons a A ih => intro v0; simpa [lastVal] using ih a.2

theorem canonicalFrom_append (A B : List (K × V)) : ∀ (v0 : V),
    CanonicalFrom v0 (A ++ B) ↔ CanonicalFrom v0 A ∧ CanonicalFrom (lastVal v0 A) B := by
  induction A with
  | nil => intro v0; simp [CanonicalFrom, lastVal]
  | cons a A ih => intro v0; simp [CanonicalFrom, lastVal, ih a.2, and_assoc]

theorem lastVal_getLast? (l : List (K × V)) : ∀ (v0 : V) (e : K × V),
    l.getLast? = some e → lastVal v0 l = e.2 := by
  induction l with
  | nil => intro v0 e h; simp at h
  | cons a l ih =>
    intro v0 e h
    cases l with
    | nil =>
      have : a = e := by simpa using h
      simp [lastVal, this]
    | cons b l =>
      rw [List.getLast?_cons_cons] at h
      simpa [lastVal] using ih a.2 e h

theorem two_le_length (sv : V) (l : List (K × V)) (hc : CanonicalFrom sv l)
    (ht : lastVal sv l = sv) (hne : l ≠ []) : 2 ≤ l.length := by
  cases l with
  | nil => exact absurd rfl hne
  | cons e l =>
    cases l with
    | nil =>
      simp only [lastVal] at ht
      exact absurd ht hc.1
    | cons b l => simp

end ListLemmas

section ContainerLemmas

variable [LinearOrder K]

theorem lower_bound_split (L X : List (K × V)) (k : K) (hL : ∀ a ∈ L, a.1 < k)
    (hX : ∀ a ∈ X.head?, ¬ a.1 < k) : lower_bound (L ++ X) k = L.length := by
  induction L with
  | nil =>
    cases X with
    | nil => simp [lower_bound]
    | cons r R =>
      have : ¬ r.1 < k := hX r (by simp)
      simp [lower_bound, this]
  | cons b L ih =>
    have hb : b.1 < k := hL b (by simp)
    have := ih (fun a ha => hL a (by simp [ha]))
    simp [lower_bound, hb, this]

theorem emplace_hint_split (L X : List (K × V)) (hint : Nat) (k : K) (v : V)
    (hL : ∀ a ∈ L, a.1 < k) (hX : ∀ a ∈ X.head?, k < a.1) :
    emplace_hint (L ++ X) hint k v = (L ++ (k, v) :: X, L.length, true) := by
  have hp : lower_bound (L ++ X) k = L.length :=
    lower_bound_split L X k hL (fun a ha => not_lt_of_gt (hX a ha))
  unfold emplace_hint
  simp only [hp]
  cases X with
  | nil => simp
  | cons r R =>
    have hr : k < r.1 := hX r (by simp)
    rw [getElem?_at L r R _ rfl]
    simp [hr]

theorem scanLoop_run (M : List (K × V)) : ∀ (fuel : Nat) (A R : List (K × V)) (kto : K)
    (lv : V), (∀ a ∈ M, a.1 < kto) → (∀ a ∈ R.head?, ¬ a.1 < kto) → M.length < fuel →
    scanLoop fuel (A ++ (M ++ R)) kto A.length lv = some (A.length + M.length, lastVal lv M) := by
  induction M with
  | nil =>
    intro fuel A R kto lv _ hR hf
    cases fuel with
    | zero => simp at hf
    | succ n =>
      cases R with
      | nil => simp [scanLoop, lastVal]
      | cons r R =>
        have hr : ¬ r.1 < kto := hR r (by simp)
        simp only [scanLoop, List.nil_append, getElem?_at A r R _ rfl]
        simp [hr, lastVal]
  | cons e M ih =>
    intro fuel A R kto lv hM hR hf
    cases fuel with
    | zero => simp at hf
    | succ n =>
      have he : e.1 < kto := hM e (by simp)
      have h := ih n (A ++ [e]) R kto e.2 (fun a ha => hM a (by simp [ha])) hR
        (by simpa using hf)
      simp only [List.append_assoc, List.singleton_append, List.length_append,
        List.length_singleton] at h
      simp only [scanLoop, List.cons_append, getElem?_at A e (M ++ R) _ rfl]
      simp [he, h, lastVal]
      omega

theorem below_append_notBelow (k : K) (l : List (K × V)) : below k l ++ notBelow k l = l := by
  induction l with
  | nil => simp [below, notBelow]
  | cons e l ih =>
    by_cases h : e.1 < k
    · simp [below, notBelow, h, ih]
    · simp [below, notBelow, h]

theorem below_lt (k : K) (l : List (K × V)) : ∀ a ∈ below k l, a.1 < k := by
  induction l with
  | nil => simp [below]
  | cons e l ih =>
    by_cases h : e.1 < k
    · intro a ha
      simp only [below, h, if_true, List.mem_cons] at ha
      rcases ha with ha | ha
      · exact ha ▸ h
      · exact ih a ha
    · simp [below, h]

theorem notBelow_head (k : K) (l : List (K × V)) : ∀ a ∈ (notBelow k l).head?, ¬ a.1 < k := by
  induction l with
  | nil => simp [notBelow]
  | cons e l ih =>
    by_cases h : e.1 < k
    · simpa [notBelow, h] using ih
    · simpa [notBelow, h] using not_lt.1 h

theorem below_eq_nil (k : K) (l : List (K × V)) (h : ∀ a ∈ l.head?, ¬ a.1 < k) :
    below k l = [] := by
  cases l with
  | nil => rfl
  | cons e l =>
    have : ¬ e.1 < k := h e (by simp)
    simp [below, this]

theorem notBelow_eq_self (k : K) (l : List (K × V)) (h : ∀ a ∈ l.head?, ¬ a.1 < k) :
    notBelow k l = l := by
  have h1 := below_append_notBelow k l
  rw [below_eq_nil k l h] at h1
  simpa using h1

theorem notBelow_subset (k : K) (l : List (K × V)) : ∀ a ∈ notBelow k l, a ∈ l := by
  intro a ha
  rw [← below_append_notBelow k l]
  exact List.mem_append_right _ ha

end ContainerLemmas

section SetLemmas

variable [LinearOrder K] [DecidableEq V]

theorem setBoundary_run (P R : List (K × V)) (bg : Nat) (tv : V) (kto : K) (v : V)
    (hP : ∀ a ∈ P, a.1 < kto) (hR : ∀ a ∈ R.head?, ¬ a.1 < kto)
    (hbg : bg < P.length ∨ tv = v) :
    ∃ D, setBoundary (P ++ R) P.length bg tv kto v =
      some (P ++ (D ++ rightPart tv kto v R), P.length + D.length, bg) := by
  have hins : ¬ tv = v → afterInsert P.length true bg = bg := by
    intro h
    have : bg < P.length := by
      cases hbg with
      | inl h1 => exact h1
      | inr h1 => exact absurd h1 h
    simp [afterInsert]; omega
  cases R with
  | nil =>
    refine ⟨[], ?_⟩
    have he := emplace_hint_split P [] P.length kto tv hP (by simp)
    simp only [List.append_nil] at he
    by_cases h : tv = v
    · simp [setBoundary, rightPart, h]
    · simp [setBoundary, rightPart, h, he, hins h]
  | cons r R =>
    have hr : ¬ r.1 < kto := hR r (by simp)
    have hlen : ¬ P.length = (P ++ r :: R).length := by simp
    by_cases h1 : kto < r.1
    · refine ⟨[], ?_⟩
      have he := emplace_hint_split P (r :: R) P.length kto tv hP (by simpa using h1)
      by_cases h : tv = v
      · simp [setBoundary, rightPart, h, h1, getElem?_at P r R _ rfl]
      · simp [setBoundary, rightPart, h, h1, getElem?_at P r R _ rfl, he, hins h]
    · by_cases h : v = r.2
      · refine ⟨[r], ?_⟩
        simp [setBoundary, rightPart, h, h1, hr, getElem?_at P r R _ rfl, next]
      · refine ⟨[], ?_⟩
        simp [setBoundary, rightPart, h, h1, hr, getElem?_at P r R _ rfl]

theorem setLeft_merge (sv : V) (A : List (K × V)) (p : K × V) (X : List (K × V)) (kfrom : K)
    (v : V) (hp : p.2 = v) :
    setLeft sv (A ++ p :: X) (A.length + 1) kfrom v = some (A ++ p :: X, A.length, v, false, true) := by
  simp [setLeft, prev, getElem?_at A p X _ rfl, hp]

theorem setLeft_insert (sv : V) (L : List (K × V)) (e : K × V) (X : List (K × V)) (kfrom : K)
    (v : V) (hL : ∀ a ∈ L, a.1 < kfrom) (hlv : ¬ lastVal sv L = v) (he : kfrom < e.1) :
    setLeft sv (L ++ e :: X) L.length kfrom v =
      some (L ++ (kfrom, v) :: e :: X, L.length, lastVal sv L, false, true) := by
  have hins := emplace_hint_split L (e :: X) L.length kfrom v hL (by simpa using he)
  rcases List.eq_nil_or_concat L with h | ⟨A, p, h⟩
  · subst h
    have hv : ¬ v = sv := fun h => hlv (by simp [lastVal, h])
    simp only [List.nil_append, List.length_nil] at hins
    simp [setLeft, hv, he, hins, lastVal]
  · rw [List.concat_eq_append] at h
    subst h
    have hp : ¬ p.2 = v := by
      intro h
      exact hlv (by simp [lastVal_append, lastVal, h])
    have h1 : (A ++ [p] ++ e :: X)[A.length]? = some p := by
      simpa using getElem?_at A p (e :: X) _ rfl
    have h2 : (A ++ [p] ++ e :: X)[(A ++ [p]).length]? = some e :=
      getElem?_at (A ++ [p]) e X _ rfl
    have h3 : (A ++ [p] ++ (kfrom, v) :: e :: X)[A.length]? = some p := by
      simpa using getElem?_at A p ((kfrom, v) :: e :: X) _ rfl
    have h4 : afterInsert (A ++ [p]).length true A.length = A.length := by
      simp [afterInsert]
    have h5 : (A ++ [p]).length - 1 = A.length := by simp
    have h6 : ¬ (A ++ [p]).length = 0 := by simp
    simp only [setLeft, prev, ne_eq, h6, not_false_eq_true, if_true, if_false, h5,
      Option.bind_eq_bind, Option.some_bind, h1, hp, h2, he, hins, h4, h3]
    simp [lastVal_append, lastVal]

theorem setLeft_assign (sv : V) (L : List (K × V)) (e : K × V) (X : List (K × V)) (kfrom : K)
    (v : V) (hlv : ¬ lastVal sv L = v) (he : ¬ kfrom < e.1) :
    setLeft sv (L ++ e :: X) L.length kfrom v = some (L ++ e :: X, L.length, e.2, true, true) := by
  rcases List.eq_nil_or_concat L with h | ⟨A, p, h⟩
  · subst h
    have hv : ¬ v = sv := fun h => hlv (by simp [lastVal, h])
    simp [setLeft, hv, he]
  · rw [List.concat_eq_append] at h
    subst h
    have hp : ¬ p.2 = v := by
      intro h
      exact hlv (by simp [lastVal_append, lastVal, h])
    have h1 : (A ++ [p] ++ e :: X)[A.length]? = some p := by
      simpa using getElem?_at A p (e :: X) _ rfl
    have h2 : (A ++ [p] ++ e :: X)[(A ++ [p]).length]? = some e :=
      getElem?_at (A ++ [p]) e X _ rfl
    have h5 : (A ++ [p]).length - 1 = A.length := by simp
    have h6 : ¬ (A ++ [p]).length = 0 := by simp
    simp only [setLeft, prev, ne_eq, h6, not_false_eq_true, if_true, if_false, h5,
      Option.bind_eq_bind, Option.some_bind, h1, hp, h2, he]

theorem setLeft_start (sv : V) (X : List (K × V)) (kfrom : K) (v : V) (hv : v = sv) :
    setLeft sv X 0 kfrom v = some (X, 0, sv, false, false) := by
  simp [setLeft, hv]

theorem setRight_keep (A : List (K × V)) (b : K × V) (M R : List (K × V)) (x : V) (ab : Bool)
    (kto : K) (v : V) (hA : ∀ a ∈ A, a.1 < kto) (hb : b.1 < kto) (hM : ∀ a ∈ M, a.1 < kto)
    (hR : ∀ a ∈ R.head?, ¬ a.1 < kto) :
    setRight (A ++ b :: (M ++ R)) A.length x ab true kto v =
      some (A ++ (if ab = true then (b.1, v) else b) :: rightPart (lastVal x M) kto v R) := by
  have hs := scanLoop_run M ((A ++ b :: (M ++ R)).length + 1) (A ++ [b]) R kto x hM hR
    (by simp; omega)
  obtain ⟨D, hD⟩ := setBoundary_run (A ++ b :: M) R A.length (lastVal x M) kto v
    (by
      intro a ha
      rcases List.mem_append.1 ha with h | h
      · exact hA a h
      · rcases List.mem_cons.1 h with h | h
        · exact h ▸ hb
        · exact hM a h)
    hR (Or.inl (by simp))
  have hE := setErase_keep A b (M ++ D) (rightPart (lastVal x M) kto v R) ab v A.length
    (A.length + 1 + M.length + D.length) rfl (by simp; omega)
  have hs1 : scanLoop ((A ++ b :: (M ++ R)).length + 1) (A ++ b :: (M ++ R)) kto
      (A.length + 1) x = some (A.length + 1 + M.length, lastVal x M) := by
    simpa using hs
  have hD1 : setBoundary (A ++ b :: (M ++ R)) (A.length + 1 + M.length) A.length (lastVal x M)
      kto v = some (A ++ b :: (M ++ D ++ rightPart (lastVal x M) kto v R),
        A.length + 1 + M.length + D.length, A.length) := by
    have e1 : (A ++ b :: M).length = A.length + 1 + M.length := by simp; omega
    rw [e1] at hD
    simpa using hD
  have hlt : A.length < (A ++ b :: (M ++ R)).length := by simp
  unfold setRight
  simp only [if_true, next, hlt, Option.bind_eq_bind, Option.some_bind, hs1, hD1]
  exact hE

theorem setRight_drop (M R : List (K × V)) (x : V) (kto : K) (v : V)
    (hM : ∀ a ∈ M, a.1 < kto) (hR : ∀ a ∈ R.head?, ¬ a.1 < kto) (hx : M = [] → x = v) :
    setRight (M ++ R) 0 x false false kto v = some (rightPart (lastVal x M) kto v R) := by
  have hs := scanLoop_run M ((M ++ R).length + 1) [] R kto x hM hR (by simp; omega)
  obtain ⟨D, hD⟩ := setBoundary_run M R 0 (lastVal x M) kto v hM hR
    (by
      cases M with
      | nil => right; simpa [lastVal] using hx rfl
      | cons e M => left; simp)
  have hE := setErase_drop (M ++ D) (rightPart (lastVal x M) kto v R) v (M.length + D.length)
    (by simp)
  simp only [List.append_assoc, List.nil_append, List.length_nil, Nat.zero_add] at hs hD hE
  unfold setRight
  simp only [Bool.false_eq_true, if_false, Option.bind_eq_bind, Option.some_bind, hs, hD]
  exact hE

theorem set_empty (sv : V) (kfrom kto : K) (v : V) (hlt : kfrom < kto) :
    set (⟨sv, []⟩ : IntervalMap K V) kfrom kto v =
      some ⟨sv, leftPart sv kfrom v ++ rightPart sv kto v []⟩ := by
  by_cases hv : v = sv
  · simp [set, hv, leftPart, rightPart]
  · have hv1 : ¬ sv = v := fun h => hv h.symm
    have h1 := emplace_hint_split ([] : List (K × V)) [] 0 kto sv (by simp) (by simp)
    have h2 := emplace_hint_split ([] : List (K × V)) [(kto, sv)] 0 kfrom v (by simp)
      (by simpa using hlt)
    simp only [List.nil_append, List.length_nil] at h1 h2
    simp [set, hv, hv1, hlt, h1, h2, leftPart, rightPart]

theorem set_append (sv : V) (A : List (K × V)) (p : K × V) (kfrom kto : K) (v : V)
    (hlt : kfrom < kto) (hL : ∀ a ∈ A ++ [p], a.1 < kfrom) :
    set (⟨sv, A ++ [p]⟩ : IntervalMap K V) kfrom kto v =
      some ⟨sv, A ++ [p] ++ leftPart p.2 kfrom v ++ rightPart p.2 kto v []⟩ := by
  have hlow : lower_bound (A ++ [p]) kfrom = (A ++ [p]).length := by
    simpa using lower_bound_split (A ++ [p]) [] kfrom hL (by simp)
  have h1 := emplace_hint_split (A ++ [p]) [] (A ++ [p]).length kto p.2
    (fun a ha => lt_trans (hL a ha) hlt) (by simp)
  have h2 := emplace_hint_split (A ++ [p]) [(kto, p.2)] (A ++ [p]).length kfrom v hL
    (by simpa using hlt)
  have h3 : (A ++ [p])[A.length]? = some p := getElem?_at A p [] _ rfl
  have h5 : (A ++ [p]).length - 1 = A.length := by simp
  have h6 : ¬ (A ++ [p]).length = 0 := by simp
  have h7 : ¬ (A ++ [p]).isEmpty = true := by simp
  simp only [List.append_nil] at h1
  by_cases hv : p.2 = v
  · simp only [set, hlt, h7, not_false_eq_true, true_or, and_self, if_true, if_false, hlow,
      prev, h6, h5, Option.bind_eq_bind, Option.some_bind, h3, hv, not_true_eq_false]
    simp [leftPart, rightPart]
  · simp only [set, hlt, h7, not_false_eq_true, true_or, and_self, if_true, if_false, hlow,
      prev, h6, h5, Option.bind_eq_bind, Option.some_bind, h3, hv, h1, h2]
    simp [leftPart, rightPart, hv]

theorem set_general (sv : V) (L : List (K × V)) (e : K × V) (X : List (K × V)) (kfrom : K)
    (kto : K) (v : V) (hlt : kfrom < kto) (hL : ∀ a ∈ L, a.1 < kfrom) (he : ¬ e.1 < kfrom) :
    set (⟨sv, L ++ e :: X⟩ : IntervalMap K V) kfrom kto v =
      (setLeft sv (L ++ e :: X) L.length kfrom v).bind fun l =>
        (setRight l.1 l.2.1 l.2.2.1 l.2.2.2.1 l.2.2.2.2 kto v).bind fun ivs =>
          some ⟨sv, ivs⟩ := by
  have hlow : lower_bound (L ++ e :: X) kfrom = L.length :=
    lower_bound_split L (e :: X) kfrom hL (by simpa using he)
  have h7 : ¬ (L ++ e :: X).isEmpty = true := by simp
  have h8 : ¬ L.length = (L ++ e :: X).length := by simp
  simp only [set, hlt, h7, not_false_eq_true, true_or, and_self, if_true, if_false, hlow, h8,
    Option.bind_eq_bind]
  simp

theorem set_split (sv : V) (L M R : List (K × V)) (kfrom kto : K) (v : V) (hlt : kfrom < kto)
    (hL : ∀ a ∈ L, a.1 < kfrom) (hX : ∀ a ∈ (M ++ R).head?, ¬ a.1 < kfrom)
    (hM : ∀ a ∈ M, a.1 < kto) (hR : ∀ a ∈ R.head?, ¬ a.1 < kto) :
    set (⟨sv, L ++ (M ++ R)⟩ : IntervalMap K V) kfrom kto v =
      some ⟨sv, L ++ leftPart (lastVal sv L) kfrom v ++
        rightPart (lastVal (lastVal sv L) M) kto v R⟩ := by
  rcases hMR : M ++ R with _ | ⟨e, X⟩
  · -- no entry at or behind `from`
    obtain ⟨hM0, hR0⟩ := List.append_eq_nil.1 hMR
    subst hM0 hR0
    rcases List.eq_nil_or_concat L with h | ⟨A, p, h⟩
    · subst h
      simpa [lastVal] using set_empty sv kfrom kto v hlt
    · rw [List.concat_eq_append] at h
      subst h
      simpa [lastVal, lastVal_append] using set_append sv A p kfrom kto v hlt hL
  · have he : ¬ e.1 < kfrom := hX e (by simp [hMR])
    rw [set_general sv L e X kfrom kto v hlt hL he]
    have hLto : ∀ a ∈ L, a.1 < kto := fun a ha => lt_trans (hL a ha) hlt
    by_cases hlv : lastVal sv L = v
    · rcases List.eq_nil_or_concat L with h | ⟨A, p, h⟩
      · subst h
        have hv : v = sv := by simpa [lastVal] using hlv.symm
        subst hv
        rw [List.nil_append, List.length_nil, setLeft_start v (e :: X) kfrom v rfl, ← hMR]
        have hr := setRight_drop M R v kto v hM hR (fun _ => rfl)
        simp [hr, leftPart, lastVal]
      · rw [List.concat_eq_append] at h
        subst h
        have hp : p.2 = v := by simpa [lastVal, lastVal_append] using hlv
        have hl := setLeft_merge sv A p (e :: X) kfrom v hp
        have hr := setRight_keep A p M R v false kto v
          (fun a ha => hLto a (by simp [ha])) (hLto p (by simp)) hM hR
        have e1 : A ++ [p] ++ e :: X = A ++ p :: e :: X := by simp
        have e2 : (A ++ [p]).length = A.length + 1 := by simp
        rw [e1, e2, hl, ← hMR]
        simp [hr, leftPart, lastVal, lastVal_append, hp]
    · by_cases hk : kfrom < e.1
      · rw [setLeft_insert sv L e X kfrom v hL hlv hk, ← hMR]
        have hr := setRight_keep L (kfrom, v) M R (lastVal sv L) false kto v hLto hlt hM hR
        simp [hr, leftPart, hlv]
      · rw [setLeft_assign sv L e X kfrom v hlv hk]
        have hek : e.1 = kfrom := le_antisymm (not_lt.1 hk) (not_lt.1 he)
        rcases M with _ | ⟨e1, M1⟩
        · -- the entry at `from` would have a key not below `to`
          have : ¬ e.1 < kto := hR e (by simpa using congrArg List.head? hMR)
          exact absurd (hek ▸ hlt) this
        · obtain ⟨h1, h2⟩ := List.cons.inj hMR
          subst h1 h2
          have hr := setRight_keep L e1 M1 R e1.2 true kto v hLto (hM e1 (by simp))
            (fun a ha => hM a (by simp [ha])) hR
          simp [hr, leftPart, hlv, lastVal, hek]

/-- For `from < to` the call `set(from, to, value)` returns, and the container
it leaves is `assigned`. -/
theorem set_eq (m : IntervalMap K V) (kfrom kto : K) (v : V) (hlt : kfrom < kto) :
    set m kfrom kto v =
      some ⟨m.startValue, assigned m.startValue m.intervals kfrom kto v⟩ := by
  have h := set_split m.startValue (below kfrom m.intervals)
    (below kto (notBelow kfrom m.intervals)) (notBelow kto (notBelow kfrom m.intervals))
    kfrom kto v hlt (below_lt kfrom _)
    (by rw [below_append_notBelow]; exact notBelow_head kfrom _)
    (below_lt kto _) (notBelow_head kto _)
  rw [below_append_notBelow, below_append_notBelow] at h
  exact h

/-- For `from >= to` the call `set(from, to, value)` returns the state it got. -/
theorem set_of_not_lt (m : IntervalMap K V) (kfrom kto : K) (v : V) (h : ¬ kfrom < kto) :
    set m kfrom kto v = some m := by
  simp [set, h]

end SetLemmas

section ValueLemmas

variable [LinearOrder K]

theorem get_aux (l : List (K × V)) (k : K) : ∀ (sv : V),
    (if upper_bound l k = 0 then some sv else (l[upper_bound l k - 1]?).map Prod.snd) =
      some (valueAt sv l k) := by
  induction l with
  | nil => intro sv; simp [upper_bound, valueAt]
  | cons e l ih =>
    intro sv
    by_cases h : k < e.1
    · simp [upper_bound, valueAt, h]
    · have ih1 := ih e.2
      have hu : upper_bound (e :: l) k = upper_bound l k + 1 := by simp [upper_bound, h]
      have hv : valueAt sv (e :: l) k = valueAt e.2 l k := by simp [valueAt, h]
      rw [hu, hv]
      by_cases h0 : upper_bound l k = 0
      · rw [h0] at ih1 ⊢
        simpa using ih1
      · obtain ⟨n, hn⟩ := Nat.exists_eq_succ_of_ne_zero h0
        rw [hn] at ih1 ⊢
        simpa using ih1

theorem get_eq (m : IntervalMap K V) (k : K) :
    get m k = some (valueAt m.startValue m.intervals k) := by
  rw [← get_aux m.intervals k m.startValue]
  by_cases h0 : upper_bound m.intervals k = 0
  · simp [get, h0]
  · simp [get, h0, prev, Option.map_eq_bind]

theorem valueAt_append_ge (A X : List (K × V)) (k : K) : ∀ (v0 : V), (∀ a ∈ A, a.1 ≤ k) →
    valueAt v0 (A ++ X) k = valueAt (lastVal v0 A) X k := by
  induction A with
  | nil => intro v0 _; simp [lastVal]
  | cons a A ih =>
    intro v0 hA
    have ha : ¬ k < a.1 := not_lt.2 (hA a (by simp))
    simpa [valueAt, ha, lastVal] using ih a.2 (fun b hb => hA b (by simp [hb]))

theorem valueAt_of_lt (X : List (K × V)) (k : K) (v0 : V) (hX : ∀ a ∈ X.head?, k < a.1) :
    valueAt v0 X k = v0 := by
  cases X with
  | nil => simp [valueAt]
  | cons r R =>
    have : k < r.1 := hX r (by simp)
    simp [valueAt, this]

theorem valueAt_append_lt (A X : List (K × V)) (k : K) : ∀ (v0 : V),
    (∀ a ∈ X.head?, k < a.1) → valueAt v0 (A ++ X) k = valueAt v0 A k := by
  induction A with
  | nil => intro v0 hX; simpa [valueAt] using valueAt_of_lt X k v0 hX
  | cons a A ih =>
    intro v0 hX
    by_cases h : k < a.1
    · simp [valueAt, h]
    · simpa [valueAt, h] using ih a.2 hX

theorem rightPart_ge (tv : V) (kto : K) (v : V) [DecidableEq V] (R : List (K × V))
    (hR : ∀ a ∈ R, kto ≤ a.1) : ∀ a ∈ rightPart tv kto v R, kto ≤ a.1 := by
  intro a ha
  cases R with
  | nil =>
    by_cases h : tv = v
    · simp [rightPart, h] at ha
    · simp only [rightPart, h, if_false, List.mem_singleton] at ha
      simp [ha]
  | cons r R =>
    simp only [rightPart] at ha
    split_ifs at ha with h1 h2 h3
    · exact hR a ha
    · rcases List.mem_cons.1 ha with h | h
      · simp [h]
      · exact hR a h
    · exact hR a (List.mem_cons_of_mem _ ha)
    · exact hR a ha

theorem valueAt_rightPart (tv : V) (kto : K) (v : V) [DecidableEq V] (R : List (K × V)) (k : K)
    (hk : kto ≤ k) : valueAt v (rightPart tv kto v R) k = valueAt tv R k := by
  have hk1 : ¬ k < kto := not_lt.2 hk
  cases R with
  | nil =>
    by_cases h : tv = v
    · simp [rightPart, h, valueAt]
    · simp [rightPart, h, valueAt, hk1]
  | cons r R =>
    by_cases h1 : kto < r.1
    · by_cases h : tv = v
      · simp [rightPart, h1, h]
      · simp [rightPart, h1, h, valueAt, hk1]
    · have h2 : ¬ k < r.1 := not_lt.2 (le_trans (not_lt.1 h1) hk)
      by_cases h : v = r.2
      · simp [rightPart, h1, h, valueAt, h2]
      · simp [rightPart, h1, h, valueAt, h2]

theorem valueAt_leftPart (lv : V) (kfrom : K) (v : V) [DecidableEq V] (Y : List (K × V)) (k : K)
    (hk : kfrom ≤ k) : valueAt lv (leftPart lv kfrom v ++ Y) k = valueAt v Y k := by
  have hk1 : ¬ k < kfrom := not_lt.2 hk
  by_cases h : lv = v
  · simp [leftPart, h]
  · simp [leftPart, h, valueAt, hk1]

/-- The value function of the container that `set` leaves, over a container cut
at `from` and `to`. -/
theorem valueAt_split [DecidableEq V] (sv : V) (L M R : List (K × V)) (kfrom kto : K) (v : V)
    (k : K) (hlt : kfrom < kto) (hL : ∀ a ∈ L, a.1 < kfrom)
    (hM : ∀ a ∈ M, kfrom ≤ a.1 ∧ a.1 < kto) (hR : ∀ a ∈ R, kto ≤ a.1) :
    valueAt sv (L ++ leftPart (lastVal sv L) kfrom v ++
        rightPart (lastVal (lastVal sv L) M) kto v R) k =
      if kfrom ≤ k ∧ k < kto then v else valueAt sv (L ++ (M ++ R)) k := by
  have hRP := rightPart_ge (lastVal (lastVal sv L) M) kto v R hR
  by_cases h1 : kfrom ≤ k
  · have hLk : ∀ a ∈ L, a.1 ≤ k := fun a ha => le_of_lt (lt_of_lt_of_le (hL a ha) h1)
    rw [List.append_assoc, valueAt_append_ge L _ k sv hLk, valueAt_leftPart _ _ _ _ _ h1,
      valueAt_append_ge L _ k sv hLk]
    by_cases h2 : k < kto
    · rw [if_pos ⟨h1, h2⟩]
      apply valueAt_of_lt
      intro a ha
      exact lt_of_lt_of_le h2 (hRP a (List.mem_of_mem_head? ha))
    · rw [if_neg (fun h => h2 h.2), valueAt_rightPart _ _ _ _ _ (not_lt.1 h2),
        valueAt_append_ge M R k _ (fun a ha => le_of_lt (lt_of_lt_of_le (hM a ha).2 (not_lt.1 h2)))]
  · have hk : k < kfrom := not_le.1 h1
    rw [if_neg (fun h => h1 h.1), List.append_assoc, valueAt_append_lt L _ k sv,
      valueAt_append_lt L _ k sv]
    · intro a ha
      rcases List.mem_append.1 (List.mem_of_mem_head? ha) with h | h
      · exact lt_of_lt_of_le hk (hM a h).1
      · exact lt_of_lt_of_le (lt_trans hk hlt) (hR a h)
    · intro a ha
      rcases List.mem_append.1 (List.mem_of_mem_head? ha) with h | h
      · by_cases hv : lastVal sv L = v
        · simp [leftPart, hv] at h
        · simp only [leftPart, hv, if_false, List.mem_singleton] at h
          simpa [h] using hk
      · exact lt_of_lt_of_le (lt_trans hk hlt) (hRP a h)

theorem notBelow_ge (k : K) (l : List (K × V)) (hs : KeySorted l) :
    ∀ a ∈ notBelow k l, k ≤ a.1 := by
  induction l with
  | nil => simp [notBelow]
  | cons e l ih =>
    have hs1 := List.pairwise_cons.1 hs
    by_cases h : e.1 < k
    · simpa [notBelow, h] using ih hs1.2
    · intro a ha
      simp only [notBelow, h, if_false, List.mem_cons] at ha
      rcases ha with ha | ha
      · exact ha ▸ not_lt.1 h
      · exact le_trans (not_lt.1 h) (le_of_lt (hs1.1 a ha))

/-- A key-sorted container cut at `from` and at `to`. -/
theorem split_sorted (ivs : List (K × V)) (kfrom kto : K) (hs : KeySorted ivs) :
    ivs = below kfrom ivs ++ (below kto (notBelow kfrom ivs) ++
        notBelow kto (notBelow kfrom ivs)) ∧
      (∀ a ∈ below kfrom ivs, a.1 < kfrom) ∧
      (∀ a ∈ below kto (notBelow kfrom ivs), kfrom ≤ a.1 ∧ a.1 < kto) ∧
      (∀ a ∈ notBelow kto (notBelow kfrom ivs), kto ≤ a.1) := by
  have e1 := below_append_notBelow kfrom ivs
  have e2 := below_append_notBelow kto (notBelow kfrom ivs)
  have hsX : KeySorted (notBelow kfrom ivs) := by
    have : KeySorted (below kfrom ivs ++ notBelow kfrom ivs) := by rw [e1]; exact hs
    exact (List.pairwise_append.1 this).2.1
  have hX := notBelow_ge kfrom ivs hs
  refine ⟨by rw [e2, e1], below_lt kfrom ivs, ?_, notBelow_ge kto _ hsX⟩
  intro a ha
  refine ⟨hX a ?_, below_lt kto _ a ha⟩
  rw [← e2]
  exact List.mem_append_left _ ha

theorem valueAt_head (v0 : V) (e : K × V) (l : List (K × V)) (hs : KeySorted (e :: l)) :
    valueAt v0 (e :: l) e.1 = e.2 := by
  have hs1 := List.pairwise_cons.1 hs
  simp only [valueAt, lt_irrefl, if_false]
  exact valueAt_of_lt l e.1 e.2 (fun a ha => hs1.1 a (List.mem_of_mem_head? ha))

theorem valueAt_tail (v0 : V) (e : K × V) (l : List (K × V)) (k : K)
    (hs : KeySorted (e :: l)) :
    valueAt e.2 l k = if k < e.1 then e.2 else valueAt v0 (e :: l) k := by
  have hs1 := List.pairwise_cons.1 hs
  by_cases h : k < e.1
  · rw [if_pos h]
    exact valueAt_of_lt l k e.2 (fun a ha => lt_trans h (hs1.1 a (List.mem_of_mem_head? ha)))
  · simp [valueAt, h]

/-- Two key-sorted canonical containers with the same value function are equal. -/
theorem canonical_ext (l1 : List (K × V)) : ∀ (l2 : List (K × V)) (sv : V),
    KeySorted l1 → KeySorted l2 → CanonicalFrom sv l1 → CanonicalFrom sv l2 →
    (∀ k, valueAt sv l1 k = valueAt sv l2 k) → l1 = l2 := by
  induction l1 with
  | nil =>
    intro l2 sv _ hs2 _ hc2 h
    cases l2 with
    | nil => rfl
    | cons e2 r2 =>
      have h1 := h e2.1
      rw [valueAt_head sv e2 r2 hs2] at h1
      exact absurd h1.symm hc2.1
  | cons e1 r1 ih =>
    intro l2 sv hs1 hs2 hc1 hc2 h
    cases l2 with
    | nil =>
      have h1 := h e1.1
      rw [valueAt_head sv e1 r1 hs1] at h1
      exact absurd h1 hc1.1
    | cons e2 r2 =>
      have hk : e1.1 = e2.1 := by
        rcases lt_trichotomy e1.1 e2.1 with hlt | heq | hgt
        · have h1 := h e1.1
          rw [valueAt_head sv e1 r1 hs1] at h1
          simp only [valueAt, hlt, if_true] at h1
          exact absurd h1 hc1.1
        · exact heq
        · have h1 := h e2.1
          rw [valueAt_head sv e2 r2 hs2] at h1
          simp only [valueAt, hgt, if_true] at h1
          exact absurd h1.symm hc2.1
      have hv : e1.2 = e2.2 := by
        have h1 := h e1.1
        rw [valueAt_head sv e1 r1 hs1, hk, valueAt_head sv e2 r2 hs2] at h1
        exact h1
      have he : e1 = e2 := Prod.ext hk hv
      subst he
      have ht : ∀ k, valueAt e1.2 r1 k = valueAt e1.2 r2 k := by
        intro k
        rw [valueAt_tail sv e1 r1 k hs1, valueAt_tail sv e1 r2 k hs2, h k]
      rw [ih r2 e1.2 (List.pairwise_cons.1 hs1).2 (List.pairwise_cons.1 hs2).2 hc1.2 hc2.2 ht]

theorem greatestWith_none (p : K → Bool) (l : List (K × V)) (h : ∀ a ∈ l, p a.1 = false) :
    greatestWith p l = none := by
  induction l with
  | nil => rfl
  | cons e l ih =>
    have h1 := ih (fun a ha => h a (by simp [ha]))
    have h2 := h e (by simp)
    simp [greatestWith, h1, h2]

theorem greatestWith_mem (p : K → Bool) (l : List (K × V)) :
    ∀ g, greatestWith p l = some g → g ∈ l := by
  induction l with
  | nil => intro g h; simp [greatestWith] at h
  | cons e l ih =>
    intro g h
    simp only [greatestWith] at h
    cases hr : greatestWith p l with
    | none =>
      rw [hr] at h
      by_cases hp : p e.1 = true
      · simp only [hp, if_true, Option.some.injEq] at h
        simp [h]
      · simp [hp] at h
    | some g1 =>
      rw [hr] at h
      have hg1 := ih g1 hr
      by_cases hp : p e.1 = true ∧ g1.1 < e.1
      · simp only [hp, and_self, if_true, Option.some.injEq] at h
        simp [h]
      · simp only [hp, if_false, Option.some.injEq] at h
        simp [← h, hg1]

theorem get_reference_eq (l : List (K × V)) (k : K) (hs : KeySorted l) : ∀ (sv : V),
    get_reference ⟨sv, l⟩ k = valueAt sv l k := by
  induction l with
  | nil => intro sv; simp [get_reference, greatestWith, valueAt]
  | cons e l ih =>
    intro sv
    have hs1 := List.pairwise_cons.1 hs
    have ih1 := ih hs1.2 e.2
    simp only [get_reference] at ih1 ⊢
    by_cases hk : k < e.1
    · have hn : greatestWith (fun x => decide (x ≤ k)) l = none := by
        apply greatestWith_none
        intro a ha
        simpa using lt_trans hk (hs1.1 a ha)
      have hle : ¬ e.1 ≤ k := not_le.2 hk
      simp [greatestWith, hn, valueAt, hk, hle]
    · have hle : e.1 ≤ k := not_lt.1 hk
      cases hr : greatestWith (fun x => decide (x ≤ k)) l with
      | none =>
        rw [hr] at ih1
        simp only [] at ih1
        simp [greatestWith, hr, valueAt, hk, hle, ← ih1]
      | some g =>
        rw [hr] at ih1
        simp only [] at ih1
        have hg : ¬ g.1 < e.1 := not_lt.2 (le_of_lt (hs1.1 g (greatestWith_mem _ l g hr)))
        simp [greatestWith, hr, valueAt, hk, hg, ← ih1]

theorem valueLeftOf_eq (l : List (K × V)) (k : K) (hs : KeySorted l) : ∀ (sv : V),
    valueLeftOf ⟨sv, l⟩ k = lastVal sv (below k l) := by
  induction l with
  | nil => intro sv; simp [valueLeftOf, greatestWith, below, lastVal]
  | cons e l ih =>
    intro sv
    have hs1 := List.pairwise_cons.1 hs
    have ih1 := ih hs1.2 e.2
    simp only [valueLeftOf] at ih1 ⊢
    by_cases hk : e.1 < k
    · cases hr : greatestWith (fun x => decide (x < k)) l with
      | none =>
        rw [hr] at ih1
        simp only [] at ih1
        simp [greatestWith, hr, below, lastVal, hk, ← ih1]
      | some g =>
        rw [hr] at ih1
        simp only [] at ih1
        have hg : ¬ g.1 < e.1 := not_lt.2 (le_of_lt (hs1.1 g (greatestWith_mem _ l g hr)))
        simp [greatestWith, hr, below, lastVal, hk, hg, ← ih1]
    · have hn : greatestWith (fun x => decide (x < k)) l = none := by
        apply greatestWith_none
        intro a ha
        simpa using le_trans (not_lt.1 hk) (le_of_lt (hs1.1 a ha))
      simp [greatestWith, hn, below, lastVal, hk]

theorem split_right_sorted (ivs : List (K × V)) (kfrom kto : K) (hs : KeySorted ivs) :
    KeySorted (notBelow kto (notBelow kfrom ivs)) := by
  obtain ⟨e1, _, _, _⟩ := split_sorted ivs kfrom kto hs
  rw [e1] at hs
  exact (List.pairwise_append.1 (List.pairwise_append.1 hs).2.1).2.1

theorem valueAt_to_split (sv : V) (ivs : List (K × V)) (kfrom kto : K) (hlt : kfrom < kto)
    (hs : KeySorted ivs) :
    valueAt sv ivs kto =
      valueAt (lastVal (lastVal sv (below kfrom ivs)) (below kto (notBelow kfrom ivs)))
        (notBelow kto (notBelow kfrom ivs)) kto := by
  obtain ⟨e1, hL, hM, _⟩ := split_sorted ivs kfrom kto hs
  conv_lhs => rw [e1]
  rw [valueAt_append_ge _ _ kto sv (fun a ha => le_of_lt (lt_trans (hL a ha) hlt)),
    valueAt_append_ge _ _ kto _ (fun a ha => le_of_lt (hM a ha).2)]

theorem valueAt_beyond (sv : V) (l : List (K × V)) (k : K) (h : ∀ e ∈ l, e.1 ≤ k) :
    valueAt sv l k = lastVal sv l := by
  have h1 := valueAt_append_ge l [] k sv h
  simpa [valueAt] using h1

theorem valueAt_of_mem (l : List (K × V)) (e : K × V) (hs : KeySorted l) : ∀ (v0 : V),
    e ∈ l → valueAt v0 l e.1 = e.2 := by
  induction l with
  | nil => intro v0 he; simp at he
  | cons a l ih =>
    intro v0 he
    have hs1 := List.pairwise_cons.1 hs
    rcases List.mem_cons.1 he with h | h
    · subst h
      exact valueAt_head v0 e l hs
    · have : ¬ e.1 < a.1 := lt_asymm (hs1.1 e h)
      simpa [valueAt, this] using ih hs1.2 a.2 h

end ValueLemmas

section Invariants

variable [LinearOrder K] [DecidableEq V]

theorem set_cases (m : IntervalMap K V) (kfrom kto : K) (v : V) :
    set m kfrom kto v =
      some (if kfrom < kto then ⟨m.startValue, assigned m.startValue m.intervals kfrom kto v⟩
        else m) := by
  by_cases h : kfrom < kto
  · rw [if_pos h]; exact set_eq m kfrom kto v h
  · rw [if_neg h]; exact set_of_not_lt m kfrom kto v h

theorem set_startValue (m m1 : IntervalMap K V) (kfrom kto : K) (v : V)
    (h : set m kfrom kto v = some m1) : m1.startValue = m.startValue := by
  rw [set_cases] at h
  have h1 := Option.some.inj h
  subst h1
  by_cases hlt : kfrom < kto
  · simp [hlt]
  · simp [hlt]

theorem rightPart_sorted (tv : V) (kto : K) (v : V) (R : List (K × V)) (hs : KeySorted R)
    (hR : ∀ a ∈ R, kto ≤ a.1) : KeySorted (rightPart tv kto v R) := by
  cases R with
  | nil =>
    by_cases h : tv = v
    · simp [rightPart, h, KeySorted]
    · simp [rightPart, h, KeySorted]
  | cons r R =>
    have hs1 := List.pairwise_cons.1 hs
    simp only [rightPart]
    split_ifs with h1 h2 h3
    · exact hs
    · refine List.pairwise_cons.2 ⟨?_, hs⟩
      intro a ha
      rcases List.mem_cons.1 ha with h | h
      · exact h ▸ h1
      · exact lt_trans h1 (hs1.1 a h)
    · exact hs1.2
    · exact hs

theorem sorted_split (sv : V) (L M R : List (K × V)) (kfrom kto : K) (v : V)
    (hlt : kfrom < kto) (hs : KeySorted (L ++ (M ++ R))) (hL : ∀ a ∈ L, a.1 < kfrom)
    (hR : ∀ a ∈ R, kto ≤ a.1) :
    KeySorted (L ++ leftPart (lastVal sv L) kfrom v ++
      rightPart (lastVal (lastVal sv L) M) kto v R) := by
  have hs1 := List.pairwise_append.1 hs
  have hs2 := List.pairwise_append.1 hs1.2.1
  have hRP := rightPart_ge (lastVal (lastVal sv L) M) kto v R hR
  have hRS := rightPart_sorted (lastVal (lastVal sv L) M) kto v R hs2.2.1 hR
  rw [List.append_assoc]
  refine List.pairwise_append.2 ⟨hs1.1, ?_, ?_⟩
  · refine List.pairwise_append.2 ⟨?_, hRS, ?_⟩
    · by_cases h : lastVal sv L = v
      · simp [leftPart, h]
      · simp [leftPart, h]
    · intro a ha b hb
      by_cases h : lastVal sv L = v
      · simp [leftPart, h] at ha
      · simp only [leftPart, h, if_false, List.mem_singleton] at ha
        subst ha
        exact lt_of_lt_of_le hlt (hRP b hb)
  · intro a ha b hb
    rcases List.mem_append.1 hb with h | h
    · by_cases hv : lastVal sv L = v
      · simp [leftPart, hv] at h
      · simp only [leftPart, hv, if_false, List.mem_singleton] at h
        subst h
        exact hL a ha
    · exact lt_of_lt_of_le (lt_trans (hL a ha) hlt) (hRP b h)

theorem canonicalFrom_rightPart (tv : V) (kto : K) (v : V) (R : List (K × V))
    (hc : CanonicalFrom tv R) : CanonicalFrom v (rightPart tv kto v R) := by
  cases R with
  | nil =>
    by_cases h : tv = v
    · simp [rightPart, h, CanonicalFrom]
    · simp [rightPart, h, CanonicalFrom]
  | cons r R =>
    simp only [CanonicalFrom] at hc
    simp only [rightPart]
    split_ifs with h1 h2 h3
    · subst h2; exact hc
    · exact ⟨h2, hc⟩
    · subst h3; exact hc.2
    · exact ⟨fun h => h3 h.symm, hc.2⟩

theorem canonical_split (sv : V) (L M R : List (K × V)) (kfrom kto : K) (v : V)
    (hc : CanonicalFrom sv (L ++ (M ++ R))) :
    CanonicalFrom sv (L ++ leftPart (lastVal sv L) kfrom v ++
      rightPart (lastVal (lastVal sv L) M) kto v R) := by
  have h1 := (canonicalFrom_append L _ sv).1 hc
  have h2 := (canonicalFrom_append M R _).1 h1.2
  have h3 := canonicalFrom_rightPart (lastVal (lastVal sv L) M) kto v R h2.2
  rw [List.append_assoc]
  refine (canonicalFrom_append L _ sv).2 ⟨h1.1, ?_⟩
  by_cases h : lastVal sv L = v
  · simpa [leftPart, h] using h3
  · simpa [leftPart, h, CanonicalFrom] using And.intro (fun h1 => h h1.symm) h3

theorem canonical_assigned (sv : V) (ivs : List (K × V)) (kfrom kto : K) (v : V)
    (hc : CanonicalFrom sv ivs) : CanonicalFrom sv (assigned sv ivs kfrom kto v) := by
  have e : ivs = below kfrom ivs ++ (below kto (notBelow kfrom ivs) ++
      notBelow kto (notBelow kfrom ivs)) := by
    rw [below_append_notBelow, below_append_notBelow]
  rw [e] at hc
  exact canonical_split sv _ _ _ kfrom kto v hc

theorem sorted_assigned (sv : V) (ivs : List (K × V)) (kfrom kto : K) (v : V)
    (hlt : kfrom < kto) (hs : KeySorted ivs) : KeySorted (assigned sv ivs kfrom kto v) := by
  obtain ⟨e, hL, _, hR⟩ := split_sorted ivs kfrom kto hs
  rw [e] at hs
  exact sorted_split sv _ _ _ kfrom kto v hlt hs hL hR

theorem valueAt_assigned (sv : V) (ivs : List (K × V)) (kfrom kto : K) (v : V) (k : K)
    (hlt : kfrom < kto) (hs : KeySorted ivs) :
    valueAt sv (assigned sv ivs kfrom kto v) k =
      if kfrom ≤ k ∧ k < kto then v else valueAt sv ivs k := by
  obtain ⟨e, hL, hM, hR⟩ := split_sorted ivs kfrom kto hs
  have h := valueAt_split sv _ _ _ kfrom kto v k hlt hL hM hR
  rw [← e] at h
  exact h

theorem canonical_set (m m1 : IntervalMap K V) (kfrom kto : K) (v : V) (hc : Canonical m)
    (h : set m kfrom kto v = some m1) : Canonical m1 := by
  rw [set_cases] at h
  have h1 := Option.some.inj h
  subst h1
  by_cases hlt : kfrom < kto
  · simpa [hlt, Canonical] using canonical_assigned m.startValue m.intervals kfrom kto v hc
  · simpa [hlt] using hc

theorem sorted_set (m m1 : IntervalMap K V) (kfrom kto : K) (v : V)
    (hs : KeySorted m.intervals) (h : set m kfrom kto v = some m1) :
    KeySorted m1.intervals := by
  rw [set_cases] at h
  have h1 := Option.some.inj h
  subst h1
  by_cases hlt : kfrom < kto
  · simpa [hlt] using sorted_assigned m.startValue m.intervals kfrom kto v hlt hs
  · simpa [hlt] using hs

theorem valueAt_set (m m1 : IntervalMap K V) (kfrom kto : K) (v : V) (k : K)
    (hs : KeySorted m.intervals) (h : set m kfrom kto v = some m1) :
    valueAt m1.startValue m1.intervals k =
      if kfrom ≤ k ∧ k < kto then v else valueAt m.startValue m.intervals k := by
  rw [set_cases] at h
  have h1 := Option.some.inj h
  subst h1
  by_cases hlt : kfrom < kto
  · simpa [hlt] using valueAt_assigned m.startValue m.intervals kfrom kto v k hlt hs
  · have : ¬ (kfrom ≤ k ∧ k < kto) := fun h => hlt (lt_of_le_of_lt h.1 h.2)
    simp [hlt, this]

theorem reachableFrom_sorted (a : V) (m : IntervalMap K V) (hm : ReachableFrom a m) :
    KeySorted m.intervals := by
  induction hm with
  | construct => simp [new, KeySorted]
  | set m m1 kfrom kto v _ h ih => exact sorted_set m m1 kfrom kto v ih h

theorem reachableFrom_canonical (a : V) (m : IntervalMap K V) (hm : ReachableFrom a m) :
    Canonical m := by
  induction hm with
  | construct => simp [new, Canonical, CanonicalFrom]
  | set m m1 kfrom kto v _ h ih => exact canonical_set m m1 kfrom kto v ih h

theorem reachableFrom_startValue (a : V) (m : IntervalMap K V) (hm : ReachableFrom a m) :
    m.startValue = a := by
  induction hm with
  | construct => simp [new]
  | set m m1 kfrom kto v _ h ih => rw [set_startValue m m1 kfrom kto v h, ih]

theorem reachable_sorted (m : IntervalMap K V) (hm : Reachable m) : KeySorted m.intervals := by
  obtain ⟨a, ha⟩ := hm
  exact reachableFrom_sorted a m ha

theorem reachable_canonical (m : IntervalMap K V) (hm : Reachable m) : Canonical m := by
  obtain ⟨a, ha⟩ := hm
  exact reachableFrom_canonical a m ha

theorem reachable_set (m m1 : IntervalMap K V) (kfrom kto : K) (v : V) (hm : Reachable m)
    (h : set m kfrom kto v = some m1) : Reachable m1 := by
  obtain ⟨a, ha⟩ := hm
  exact ⟨a, ReachableFrom.set m m1 kfrom kto v ha h⟩

/-- On a reachable state `set` returns the state it got whenever that state
already has the value function asked for. -/
theorem set_fixed (m m1 : IntervalMap K V) (kfrom kto : K) (v : V) (hm : Reachable m)
    (h : set m kfrom kto v = some m1)
    (hv : ∀ k, valueAt m1.startValue m1.intervals k = valueAt m.startValue m.intervals k) :
    m1 = m := by
  have hsv := set_startValue m m1 kfrom kto v h
  have hm1 := reachable_set m m1 kfrom kto v hm h
  have hc := reachable_canonical m1 hm1
  have hc0 := reachable_canonical m hm
  simp only [Canonical, hsv] at hc
  have hl := canonical_ext m1.intervals m.intervals m.startValue (reachable_sorted m1 hm1)
    (reachable_sorted m hm) hc hc0 (by intro k; have := hv k; rw [hsv] at this; exact this)
  cases m
  cases m1
  simp_all

end Invariants

section Boundaries

variable [LinearOrder K] [DecidableEq V]

theorem rightPart_gt (tv : V) (kto : K) (v : V) (R : List (K × V)) (hs : KeySorted R)
    (hR : ∀ a ∈ R, kto ≤ a.1) (hv : valueAt tv R kto = v) :
    ∀ a ∈ rightPart tv kto v R, kto < a.1 := by
  cases R with
  | nil =>
    have : tv = v := by simpa [valueAt] using hv
    simp [rightPart, this]
  | cons r R =>
    have hs1 := List.pairwise_cons.1 hs
    by_cases h1 : kto < r.1
    · have : tv = v := by simpa [valueAt, h1] using hv
      intro a ha
      simp only [rightPart, h1, this, if_true, List.mem_cons] at ha
      rcases ha with ha | ha
      · exact ha ▸ h1
      · exact lt_trans h1 (hs1.1 a ha)
    · have hle : r.1 ≤ kto := not_lt.1 h1
      have h2 : valueAt r.2 R kto = r.2 :=
        valueAt_of_lt R kto r.2
          (fun a ha => lt_of_le_of_lt (hR r (by simp))
            (hs1.1 a (List.mem_of_mem_head? ha)))
      have h3 : v = r.2 := by
        have : valueAt tv (r :: R) kto = valueAt r.2 R kto := by simp [valueAt, h1]
        rw [← hv, this, h2]
      intro a ha
      simp only [rightPart, h1, h3, if_true, if_false] at ha
      exact lt_of_le_of_lt (hR r (by simp)) (hs1.1 a ha)

theorem assigned_no_from (sv : V) (ivs : List (K × V)) (kfrom kto : K) (v : V)
    (hlt : kfrom < kto) (hs : KeySorted ivs) (hleft : lastVal sv (below kfrom ivs) = v) :
    ∀ e ∈ assigned sv ivs kfrom kto v, e.1 ≠ kfrom := by
  obtain ⟨_, hL, _, hR⟩ := split_sorted ivs kfrom kto hs
  intro e he
  simp only [assigned, hleft, leftPart, if_true, List.append_nil, List.mem_append] at he
  rcases he with he | he
  · exact ne_of_lt (hL e he)
  · exact ne_of_gt (lt_of_lt_of_le hlt (rightPart_ge _ kto v _ hR e he))

theorem assigned_no_to (sv : V) (ivs : List (K × V)) (kfrom kto : K) (v : V)
    (hlt : kfrom < kto) (hs : KeySorted ivs) (hv : valueAt sv ivs kto = v) :
    ∀ e ∈ assigned sv ivs kfrom kto v, e.1 ≠ kto := by
  obtain ⟨e1, hL, hM, hR⟩ := split_sorted ivs kfrom kto hs
  have hsR : KeySorted (notBelow kto (notBelow kfrom ivs)) := by
    rw [e1] at hs
    exact (List.pairwise_append.1 (List.pairwise_append.1 hs).2.1).2.1
  have hv1 : valueAt (lastVal (lastVal sv (below kfrom ivs)) (below kto (notBelow kfrom ivs)))
      (notBelow kto (notBelow kfrom ivs)) kto = v := by
    rw [e1, valueAt_append_ge _ _ kto sv (fun a ha => le_of_lt (lt_trans (hL a ha) hlt)),
      valueAt_append_ge _ _ kto _ (fun a ha => le_of_lt (hM a ha).2)] at hv
    exact hv
  have hgt := rightPart_gt _ kto v _ hsR hR hv1
  intro e he
  simp only [assigned, List.mem_append] at he
  rcases he with (he | he) | he
  · exact ne_of_lt (lt_trans (hL e he) hlt)
  · by_cases h : lastVal sv (below kfrom ivs) = v
    · simp [leftPart, h] at he
    · simp only [leftPart, h, if_false, List.mem_singleton] at he
      rw [he]
      exact ne_of_lt hlt
  · exact ne_of_gt (hgt e he)

end Boundaries

section LeftPart

variable [DecidableEq V]

theorem lastVal_leftPart (lv : V) (kfrom : K) (v : V) :
    lastVal lv (leftPart lv kfrom v) = v := by
  by_cases h : lv = v
  · simp [leftPart, h, lastVal]
  · simp [leftPart, h, lastVal]

end LeftPart

section Rules

variable [LinearOrder K] [DecidableEq V]

theorem rightPart_mem_to (tv : V) (kto : K) (v w : V) (R : List (K × V)) (hs : KeySorted R)
    (hR : ∀ a ∈ R, kto ≤ a.1) (hv : valueAt tv R kto = w) (hne : ¬ w = v) :
    (kto, w) ∈ rightPart tv kto v R := by
  cases R with
  | nil =>
    have h : tv = w := by simpa [valueAt] using hv
    subst h
    simp [rightPart, hne]
  | cons r R =>
    have hs1 := List.pairwise_cons.1 hs
    by_cases h1 : kto < r.1
    · have h : tv = w := by simpa [valueAt, h1] using hv
      subst h
      simp [rightPart, h1, hne]
    · have hk : r.1 = kto := le_antisymm (not_lt.1 h1) (hR r (by simp))
      have h2 : valueAt r.2 R kto = r.2 :=
        valueAt_of_lt R kto r.2
          (fun a ha => lt_of_le_of_lt (hR r (by simp))
            (hs1.1 a (List.mem_of_mem_head? ha)))
      have h3 : r.2 = w := by
        have : valueAt tv (r :: R) kto = valueAt r.2 R kto := by simp [valueAt, h1]
        rw [← hv, this, h2]
      have h4 : ¬ v = w := fun h => hne h.symm
      have h5 : r = (kto, w) := Prod.ext hk h3
      subst h5
      simp [rightPart, h4]

theorem assigned_mem_to (sv : V) (ivs : List (K × V)) (kfrom kto : K) (v w : V)
    (hlt : kfrom < kto) (hs : KeySorted ivs) (hv : valueAt sv ivs kto = w) (hne : ¬ w = v) :
    (kto, w) ∈ assigned sv ivs kfrom kto v := by
  obtain ⟨_, _, _, hR⟩ := split_sorted ivs kfrom kto hs
  rw [valueAt_to_split sv ivs kfrom kto hlt hs] at hv
  have h := rightPart_mem_to _ kto v w _ (split_right_sorted ivs kfrom kto hs) hR hv hne
  simp only [assigned, List.mem_append]
  exact Or.inr h

theorem assigned_filter_from (sv : V) (ivs : List (K × V)) (kfrom kto : K) (v : V)
    (hlt : kfrom < kto) (hs : KeySorted ivs) (hleft : ¬ lastVal sv (below kfrom ivs) = v) :
    (assigned sv ivs kfrom kto v).filter (fun e => decide (e.1 = kfrom)) = [(kfrom, v)] := by
  obtain ⟨_, hL, _, hR⟩ := split_sorted ivs kfrom kto hs
  have hRP := rightPart_ge (lastVal (lastVal sv (below kfrom ivs))
    (below kto (notBelow kfrom ivs))) kto v _ hR
  have h1 : (below kfrom ivs).filter (fun e => decide (e.1 = kfrom)) = [] := by
    apply List.filter_eq_nil_iff.2
    intro a ha
    simpa using ne_of_lt (hL a ha)
  have h2 : (rightPart (lastVal (lastVal sv (below kfrom ivs))
      (below kto (notBelow kfrom ivs))) kto v (notBelow kto (notBelow kfrom ivs))).filter
      (fun e => decide (e.1 = kfrom)) = [] := by
    apply List.filter_eq_nil_iff.2
    intro a ha
    simpa using ne_of_gt (lt_of_lt_of_le hlt (hRP a ha))
  simp only [assigned, leftPart, hleft, if_false, List.filter_append, h1, h2]
  simp

theorem assigned_no_inside (sv : V) (ivs : List (K × V)) (kfrom kto : K) (v : V)
    (hs : KeySorted ivs) :
    ∀ e ∈ assigned sv ivs kfrom kto v, ¬ (kfrom < e.1 ∧ e.1 < kto) := by
  obtain ⟨_, hL, _, hR⟩ := split_sorted ivs kfrom kto hs
  intro e he hk
  simp only [assigned, List.mem_append] at he
  rcases he with (he | he) | he
  · exact lt_asymm (hL e he) hk.1
  · by_cases h : lastVal sv (below kfrom ivs) = v
    · simp [leftPart, h] at he
    · simp only [leftPart, h, if_false, List.mem_singleton] at he
      rw [he] at hk
      exact lt_irrefl _ hk.1
  · exact not_lt.2 (rightPart_ge _ kto v _ hR e he) hk.2

/-- A write into the inside of one run leaves the old entries and adds the two
boundaries. -/
theorem assigned_split_run (sv : V) (ivs : List (K × V)) (kfrom kto : K) (v w : V)
    (hlt : kfrom < kto) (hs : KeySorted ivs)
    (hno : ∀ e ∈ ivs, ¬ (kfrom ≤ e.1 ∧ e.1 ≤ kto)) (hw : valueAt sv ivs kfrom = w)
    (hne : ¬ w = v) :
    assigned sv ivs kfrom kto v =
        below kfrom ivs ++ (kfrom, v) :: (kto, w) :: notBelow kfrom ivs ∧
      ∀ a ∈ notBelow kfrom ivs, kto < a.1 := by
  have hX : ∀ a ∈ notBelow kfrom ivs, kto < a.1 := by
    intro a ha
    by_contra hc
    exact hno a (notBelow_subset kfrom ivs a ha)
      ⟨notBelow_ge kfrom ivs hs a ha, not_lt.1 hc⟩
  have hXh : ∀ a ∈ (notBelow kfrom ivs).head?, ¬ a.1 < kto :=
    fun a ha => not_lt.2 (le_of_lt (hX a (List.mem_of_mem_head? ha)))
  have hM := below_eq_nil kto _ hXh
  have hR := notBelow_eq_self kto _ hXh
  have hlv : lastVal sv (below kfrom ivs) = w := by
    rw [← hw]
    conv_rhs => rw [← below_append_notBelow kfrom ivs]
    rw [valueAt_append_ge _ _ kfrom sv (fun a ha => le_of_lt (below_lt kfrom ivs a ha)),
      valueAt_of_lt _ kfrom _
        (fun a ha => lt_trans hlt (hX a (List.mem_of_mem_head? ha)))]
  refine ⟨?_, hX⟩
  simp only [assigned, hM, hR, hlv, lastVal, leftPart, hne, if_false]
  cases hc : notBelow kfrom ivs with
  | nil => simp [rightPart, hne]
  | cons r R =>
    have hr : kto < r.1 := hX r (by simp [hc])
    simp [rightPart, hne, hr]

theorem rightPart_mem_gt (tv : V) (kto : K) (v : V) (R : List (K × V)) (e : K × V)
    (he : kto < e.1) : e ∈ rightPart tv kto v R ↔ e ∈ R := by
  have hne : ¬ e = (kto, tv) := by
    intro h
    rw [h] at he
    exact lt_irrefl _ he
  cases R with
  | nil =>
    by_cases h : tv = v
    · simp [rightPart, h]
    · simp [rightPart, h, hne]
  | cons r R =>
    by_cases h1 : kto < r.1
    · by_cases h : tv = v
      · simp [rightPart, h1, h]
      · simp [rightPart, h1, h, hne]
    · have hr : ¬ e = r := fun h => h1 (h ▸ he)
      by_cases h : v = r.2
      · simp [rightPart, h1, h, hr]
      · simp [rightPart, h1, h]

/-- The entries with a key outside the closed range are those of the old
container. -/
theorem assigned_frame (sv : V) (ivs : List (K × V)) (kfrom kto : K) (v : V)
    (hlt : kfrom < kto) (hs : KeySorted ivs) (e : K × V) (he : e.1 < kfrom ∨ kto < e.1) :
    e ∈ assigned sv ivs kfrom kto v ↔ e ∈ ivs := by
  obtain ⟨e1, hL, hM, hR⟩ := split_sorted ivs kfrom kto hs
  have hRP := rightPart_ge (lastVal (lastVal sv (below kfrom ivs))
    (below kto (notBelow kfrom ivs))) kto v _ hR
  have hleft : ¬ e ∈ leftPart (lastVal sv (below kfrom ivs)) kfrom v := by
    intro h
    by_cases hv : lastVal sv (below kfrom ivs) = v
    · simp [leftPart, hv] at h
    · simp only [leftPart, hv, if_false, List.mem_singleton] at h
      rw [h] at he
      rcases he with he | he
      · exact lt_irrefl _ he
      · exact lt_asymm hlt he
  conv_rhs => rw [e1]
  simp only [assigned, List.mem_append]
  rcases he with he | he
  · have h1 : ¬ e ∈ rightPart (lastVal (lastVal sv (below kfrom ivs))
        (below kto (notBelow kfrom ivs))) kto v (notBelow kto (notBelow kfrom ivs)) :=
      fun h => lt_irrefl _ (lt_of_lt_of_le (lt_trans he hlt) (hRP e h))
    have h2 : ¬ e ∈ below kto (notBelow kfrom ivs) :=
      fun h => not_lt.2 (hM e h).1 he
    have h3 : ¬ e ∈ notBelow kto (notBelow kfrom ivs) :=
      fun h => lt_irrefl _ (lt_of_lt_of_le (lt_trans he hlt) (hR e h))
    simp [hleft, h1, h2, h3]
  · have h1 : ¬ e ∈ below kfrom ivs := fun h => lt_asymm (lt_trans (hL e h) hlt) he
    have h2 : ¬ e ∈ below kto (notBelow kfrom ivs) := fun h => lt_asymm (hM e h).2 he
    simp [hleft, h1, h2, rightPart_mem_gt _ kto v _ e he]

theorem lastVal_rightPart (tv : V) (kto : K) (v : V) (R : List (K × V)) :
    lastVal v (rightPart tv kto v R) = lastVal tv R := by
  cases R with
  | nil =>
    by_cases h : tv = v
    · simp [rightPart, h, lastVal]
    · simp [rightPart, h, lastVal]
  | cons r R =>
    by_cases h1 : kto < r.1
    · by_cases h : tv = v
      · simp [rightPart, h1, h, lastVal]
      · simp [rightPart, h1, h, lastVal]
    · by_cases h : v = r.2
      · simp [rightPart, h1, h, lastVal]
      · simp [rightPart, h1, h, lastVal]

/-- The value of the last entry, or `startValue` for the empty container, is
the same before and after `set`. -/
theorem lastVal_assigned (sv : V) (ivs : List (K × V)) (kfrom kto : K) (v : V) :
    lastVal sv (assigned sv ivs kfrom kto v) = lastVal sv ivs := by
  have e : lastVal sv ivs = lastVal sv (below kfrom ivs ++
      (below kto (notBelow kfrom ivs) ++ notBelow kto (notBelow kfrom ivs))) := by
    rw [below_append_notBelow, below_append_notBelow]
  rw [e]
  simp only [assigned, lastVal_append, lastVal_leftPart, lastVal_rightPart]

theorem lastVal_set (m m1 : IntervalMap K V) (kfrom kto : K) (v : V)
    (h : set m kfrom kto v = some m1) :
    lastVal m1.startValue m1.intervals = lastVal m.startValue m.intervals := by
  rw [set_cases] at h
  have h1 := Option.some.inj h
  subst h1
  by_cases hlt : kfrom < kto
  · simpa [hlt] using lastVal_assigned m.startValue m.intervals kfrom kto v
  · simp [hlt]

theorem reachableFrom_tail (a : V) (m : IntervalMap K V) (hm : ReachableFrom a m) :
    lastVal m.startValue m.intervals = m.startValue := by
  induction hm with
  | construct => simp [new, lastVal]
  | set m m1 kfrom kto v _ h ih =>
    rw [lastVal_set m m1 kfrom kto v h, ih, set_startValue m m1 kfrom kto v h]

theorem reachable_tail (m : IntervalMap K V) (hm : Reachable m) :
    lastVal m.startValue m.intervals = m.startValue := by
  obtain ⟨a, ha⟩ := hm
  exact reachableFrom_tail a m ha

theorem length_assigned_le (sv : V) (ivs : List (K × V)) (kfrom kto : K) (v : V) :
    (assigned sv ivs kfrom kto v).length ≤ ivs.length + 2 := by
  have e : ivs.length = (below kfrom ivs ++
      (below kto (notBelow kfrom ivs) ++ notBelow kto (notBelow kfrom ivs))).length := by
    rw [below_append_notBelow, below_append_notBelow]
  have h1 : ∀ lv : V, (leftPart lv kfrom v).length ≤ 1 := by
    intro lv
    by_cases h : lv = v
    · simp [leftPart, h]
    · simp [leftPart, h]
  have h2 : ∀ (tv : V) (R : List (K × V)), (rightPart tv kto v R).length ≤ R.length + 1 := by
    intro tv R
    cases R with
    | nil =>
      by_cases h : tv = v
      · simp [rightPart, h]
      · simp [rightPart, h]
    | cons r R =>
      simp only [rightPart]
      split_ifs <;> simp only [List.length_cons] <;> omega
  have h3 := h1 (lastVal sv (below kfrom ivs))
  have h4 := h2 (lastVal (lastVal sv (below kfrom ivs)) (below kto (notBelow kfrom ivs)))
    (notBelow kto (notBelow kfrom ivs))
  rw [e]
  simp only [assigned, List.length_append]
  omega

/-- Writing `startValue` over a range that covers every stored key empties the
container of a state whose last entry carries `startValue`. -/
theorem assigned_reset (sv : V) (ivs : List (K × V)) (kfrom kto : K) (hs : KeySorted ivs)
    (hall : ∀ e ∈ ivs, kfrom ≤ e.1 ∧ e.1 ≤ kto) (ht : lastVal sv ivs = sv) :
    assigned sv ivs kfrom kto sv = [] := by
  have hh : ∀ a ∈ ivs.head?, ¬ a.1 < kfrom :=
    fun a ha => not_lt.2 (hall a (List.mem_of_mem_head? ha)).1
  have hL := below_eq_nil kfrom ivs hh
  have hX := notBelow_eq_self kfrom ivs hh
  have e2 := below_append_notBelow kto ivs
  have hR := notBelow_ge kto ivs hs
  have hsR : KeySorted (notBelow kto ivs) := by
    have : KeySorted (below kto ivs ++ notBelow kto ivs) := by rw [e2]; exact hs
    exact (List.pairwise_append.1 this).2.1
  have ht1 : lastVal (lastVal sv (below kto ivs)) (notBelow kto ivs) = sv := by
    rw [← lastVal_append, e2]; exact ht
  simp only [assigned, hL, hX, lastVal, leftPart, if_true, List.nil_append]
  cases hc : notBelow kto ivs with
  | nil =>
    rw [hc] at ht1
    simp only [lastVal] at ht1
    simp [rightPart, ht1]
  | cons r R =>
    rw [hc] at ht1 hsR hR
    have hs1 := List.pairwise_cons.1 hsR
    have hrk : r.1 ≤ kto := (hall r (notBelow_subset kto ivs r (by simp [hc]))).2
    have hRnil : R = [] := by
      cases R with
      | nil => rfl
      | cons b R =>
        have hb : b.1 ≤ kto := (hall b (notBelow_subset kto ivs b (by simp [hc]))).2
        have : r.1 < b.1 := hs1.1 b (by simp)
        exact absurd (lt_of_lt_of_le (lt_of_le_of_lt (hR r (by simp)) this) hb) (lt_irrefl _)
    subst hRnil
    simp only [lastVal] at ht1
    simp [rightPart, not_lt.2 hrk, ht1]

end Rules

section Scenarios

/-- Scenario 1: `Map('A')`, then `set(1, 5, 'B')`. -/
theorem scenario_first : set (new 'A' : IntervalMap Nat Char) 1 5 'B' =
    some ⟨'A', [(1, 'B'), (5, 'A')]⟩ := by
  decide

/-- Scenario 3: from `{1:'B', 5:'A'}`, `set(0, 1, 'B')`. -/
theorem scenario_extend : set (⟨'A', [(1, 'B'), (5, 'A')]⟩ : IntervalMap Nat Char) 0 1 'B' =
    some ⟨'A', [(0, 'B'), (5, 'A')]⟩ := by
  decide

/-- Scenario 6: from `{1:'B', 10:'A'}`, `set(3, 5, 'A')` carves a hole. -/
theorem scenario_hole : set (⟨'A', [(1, 'B'), (10, 'A')]⟩ : IntervalMap Nat Char) 3 5 'A' =
    some ⟨'A', [(1, 'B'), (3, 'A'), (5, 'B'), (10, 'A')]⟩ := by
  decide

theorem reachableFrom_first :
    ReachableFrom 'A' (⟨'A', [(1, 'B'), (5, 'A')]⟩ : IntervalMap Nat Char) :=
  ReachableFrom.set _ _ 1 5 'B' ReachableFrom.construct scenario_first

theorem reachable_first : Reachable (⟨'A', [(1, 'B'), (5, 'A')]⟩ : IntervalMap Nat Char) :=
  ⟨'A', reachableFrom_first⟩

theorem reachable_extend : Reachable (⟨'A', [(0, 'B'), (5, 'A')]⟩ : IntervalMap Nat Char) :=
  reachable_set _ _ 0 1 'B' reachable_first scenario_extend

/-- The state `{1:'B', 5:'A'}` is also reached by writing the run in two halves. -/
theorem reachableFrom_halves :
    ReachableFrom 'A' (⟨'A', [(1, 'B'), (5, 'A')]⟩ : IntervalMap Nat Char) :=
  ReachableFrom.set ⟨'A', [(1, 'B'), (3, 'A')]⟩ _ 3 5 'B'
    (ReachableFrom.set _ _ 1 3 'B' ReachableFrom.construct (by decide)) (by decide)

/-- Scenario 6, first call: `Map('A')`, then `set(1, 10, 'B')`. -/
theorem scenario_long : set (new 'A' : IntervalMap Nat Char) 1 10 'B' =
    some ⟨'A', [(1, 'B'), (10, 'A')]⟩ := by
  decide

theorem reachable_new : Reachable (new 'A' : IntervalMap Nat Char) :=
  ⟨'A', ReachableFrom.construct⟩

theorem reachable_long : Reachable (⟨'A', [(1, 'B'), (10, 'A')]⟩ : IntervalMap Nat Char) :=
  reachable_set _ _ 1 10 'B' reachable_new scenario_long

end Scenarios

section Claims

variable [LinearOrder K] [DecidableEq V]

/-- Claim C1. On a reachable state `set(from, to, v)` returns, and `get(k)` on
the state it leaves is `v` for `from <= k < to` and the value `get(k)` had
before the call for every other key; for `from >= to` no key is in the range. -/
theorem set_get (m : IntervalMap K V) (hm : Reachable m) (kfrom kto k : K) (v : V) :
    ∃ m1 x, set m kfrom kto v = some m1 ∧ get m k = some x ∧
      get m1 k = some (if kfrom ≤ k ∧ k < kto then v else x) := by
  obtain ⟨m1, h⟩ : ∃ m1, set m kfrom kto v = some m1 := ⟨_, set_cases m kfrom kto v⟩
  refine ⟨m1, valueAt m.startValue m.intervals k, h, get_eq m k, ?_⟩
  rw [get_eq, valueAt_set m m1 kfrom kto v k (reachable_sorted m hm) h]

theorem set_get_witness :
    ∃ m1 x, set (⟨'A', [(1, 'B'), (5, 'A')]⟩ : IntervalMap Nat Char) 3 7 'C' = some m1 ∧
      get (⟨'A', [(1, 'B'), (5, 'A')]⟩ : IntervalMap Nat Char) 4 = some x ∧
      get m1 4 = some (if 3 ≤ 4 ∧ 4 < 7 then 'C' else x) :=
  set_get _ reachable_first 3 7 4 'C'

/-- Claim C2. Canonical form (the value of the first stored breakpoint differs
from `startValue`, and adjacent breakpoints carry different values) holds for
the freshly constructed map, is kept by every `set` call, which returns, and
so holds in every reachable state. -/
theorem canonical_invariant :
    (∀ a : V, Canonical (new a : IntervalMap K V)) ∧
    (∀ (m : IntervalMap K V) (kfrom kto : K) (v : V), Canonical m →
      ∃ m1, set m kfrom kto v = some m1 ∧ Canonical m1) ∧
    (∀ m : IntervalMap K V, Reachable m → Canonical m) := by
  refine ⟨?_, ?_, reachable_canonical⟩
  · intro a
    simp [new, Canonical, CanonicalFrom]
  · intro m kfrom kto v hc
    exact ⟨_, set_cases m kfrom kto v, canonical_set m _ kfrom kto v hc (set_cases m kfrom kto v)⟩

/-- Claim C3. For `from >= to` the call `set(from, to, v)` returns with the
whole state, `startValue` and the breakpoint container, equal to the state
before the call. -/
theorem set_empty_range (m : IntervalMap K V) (kfrom kto : K) (v : V) (h : kto ≤ kfrom) :
    set m kfrom kto v = some m :=
  set_of_not_lt m kfrom kto v (not_lt.2 h)

theorem set_empty_range_witness :
    set (⟨'A', [(1, 'B'), (5, 'A')]⟩ : IntervalMap Nat Char) 4 2 'C' =
      some ⟨'A', [(1, 'B'), (5, 'A')]⟩ :=
  set_empty_range _ 4 2 'C' (by decide)

/-- Claim C4. Two states reachable from construction with the same initial
value on which `get` agrees at every key have identical breakpoint
containers. -/
theorem canonical_unique (a : V) (m1 m2 : IntervalMap K V) (h1 : ReachableFrom a m1)
    (h2 : ReachableFrom a m2) (hget : ∀ k, get m1 k = get m2 k) :
    m1.intervals = m2.intervals := by
  have hs1 := reachableFrom_startValue a m1 h1
  have hs2 := reachableFrom_startValue a m2 h2
  have hc1 := reachableFrom_canonical a m1 h1
  have hc2 := reachableFrom_canonical a m2 h2
  simp only [Canonical, hs1, hs2] at hc1 hc2
  refine canonical_ext m1.intervals m2.intervals a (reachableFrom_sorted a m1 h1)
    (reachableFrom_sorted a m2 h2) hc1 hc2 ?_
  intro k
  have h := hget k
  rw [get_eq, get_eq, hs1, hs2] at h
  exact Option.some.inj h

theorem canonical_unique_witness :
    (⟨'A', [(1, 'B'), (5, 'A')]⟩ : IntervalMap Nat Char).intervals =
      (⟨'A', [(1, 'B'), (5, 'A')]⟩ : IntervalMap Nat Char).intervals :=
  canonical_unique 'A' _ _ reachableFrom_first reachableFrom_halves (fun _ => rfl)

/-- Claim C5. On a reachable state, `set(from, to, v)` followed by the same
call again returns both times, and the second call leaves the number of stored
breakpoints unchanged. -/
theorem set_idempotent (m : IntervalMap K V) (hm : Reachable m) (kfrom kto : K) (v : V) :
    ∃ m1 m2, set m kfrom kto v = some m1 ∧ set m1 kfrom kto v = some m2 ∧
      m2.intervals.length = m1.intervals.length := by
  obtain ⟨m1, h1⟩ : ∃ m1, set m kfrom kto v = some m1 := ⟨_, set_cases m kfrom kto v⟩
  obtain ⟨m2, h2⟩ : ∃ m2, set m1 kfrom kto v = some m2 := ⟨_, set_cases m1 kfrom kto v⟩
  have hm1 := reachable_set m m1 kfrom kto v hm h1
  have hfix : m2 = m1 := by
    apply set_fixed m1 m2 kfrom kto v hm1 h2
    intro k
    rw [valueAt_set m1 m2 kfrom kto v k (reachable_sorted m1 hm1) h2,
      valueAt_set m m1 kfrom kto v k (reachable_sorted m hm) h1]
    by_cases hk : kfrom ≤ k ∧ k < kto
    · simp [hk]
    · simp [hk]
  exact ⟨m1, m2, h1, h2, by rw [hfix]⟩

theorem set_idempotent_witness :
    ∃ m1 m2, set (⟨'A', [(1, 'B'), (5, 'A')]⟩ : IntervalMap Nat Char) 3 7 'C' = some m1 ∧
      set m1 3 7 'C' = some m2 ∧ m2.intervals.length = m1.intervals.length :=
  set_idempotent _ reachable_first 3 7 'C'

/-- Claim C6. On a reachable state, when `from < to` and `get(k)` is already `v`
for every key `k` with `from <= k < to`, the call `set(from, to, v)` returns and
leaves the breakpoint container exactly as it was. -/
theorem set_redundant (m : IntervalMap K V) (hm : Reachable m) (kfrom kto : K) (v : V)
    (hlt : kfrom < kto) (hv : ∀ k, kfrom ≤ k → k < kto → get m k = some v) :
    ∃ m1, set m kfrom kto v = some m1 ∧ m1.intervals = m.intervals := by
  obtain ⟨m1, h1⟩ : ∃ m1, set m kfrom kto v = some m1 := ⟨_, set_eq m kfrom kto v hlt⟩
  have hfix : m1 = m := by
    apply set_fixed m m1 kfrom kto v hm h1
    intro k
    rw [valueAt_set m m1 kfrom kto v k (reachable_sorted m hm) h1]
    by_cases hk : kfrom ≤ k ∧ k < kto
    · have h := hv k hk.1 hk.2
      rw [get_eq] at h
      simp [hk, Option.some.inj h]
    · simp [hk]
  exact ⟨m1, h1, by rw [hfix]⟩

theorem set_redundant_witness :
    set (⟨'A', [(1, 'B'), (5, 'A')]⟩ : IntervalMap Nat Char) 2 3 'B' =
        some ⟨'A', [(1, 'B'), (5, 'A')]⟩ ∧
      ∃ m1, set (⟨'A', [(1, 'B'), (5, 'A')]⟩ : IntervalMap Nat Char) 2 3 'B' = some m1 ∧
        m1.intervals = [(1, 'B'), (5, 'A')] :=
  ⟨by decide, set_redundant _ reachable_first 2 3 'B' (by decide) (by
    intro k h1 h2
    have hk : k = 2 := by omega
    subst hk
    decide)⟩

/-- Claim C7. On a state whose breakpoint container is empty, `set(from, to, v)`
with `v == startValue` returns the state unchanged, so the container stays
empty, for all `from` and `to`. -/
theorem set_fast_path (m : IntervalMap K V) (kfrom kto : K) (v : V)
    (hempty : m.intervals = []) (hv : v = m.startValue) :
    set m kfrom kto v = some m := by
  simp [set, hempty, hv]

theorem set_fast_path_witness :
    set (new 'A' : IntervalMap Nat Char) 2 4 'A' = some ⟨'A', []⟩ :=
  set_fast_path (new 'A') 2 4 'A' rfl rfl

/-- Claim C8. Merge-left law: on a reachable state with `from < to`, when the
value in effect immediately left of `from` equals `v`, the call
`set(from, to, v)` returns and the container it leaves holds no breakpoint with
key `from`. -/
theorem set_merge_left (m : IntervalMap K V) (hm : Reachable m) (kfrom kto : K) (v : V)
    (hlt : kfrom < kto) (hleft : valueLeftOf m kfrom = v) :
    ∃ m1, set m kfrom kto v = some m1 ∧ ∀ e ∈ m1.intervals, e.1 ≠ kfrom := by
  have hs := reachable_sorted m hm
  refine ⟨_, set_eq m kfrom kto v hlt, ?_⟩
  have h1 : lastVal m.startValue (below kfrom m.intervals) = v := by
    rw [← valueLeftOf_eq m.intervals kfrom hs m.startValue]
    exact hleft
  exact assigned_no_from m.startValue m.intervals kfrom kto v hlt hs h1

theorem set_merge_left_witness :
    set (⟨'A', [(0, 'B'), (5, 'A')]⟩ : IntervalMap Nat Char) 5 6 'B' =
        some ⟨'A', [(0, 'B'), (6, 'A')]⟩ ∧
      ∃ m1, set (⟨'A', [(0, 'B'), (5, 'A')]⟩ : IntervalMap Nat Char) 5 6 'B' = some m1 ∧
        ∀ e ∈ m1.intervals, e.1 ≠ 5 :=
  ⟨by decide, set_merge_left _ reachable_extend 5 6 'B' (by decide) (by decide)⟩

/-- Claim C9. Merge-right law: on a reachable state with `from < to`, when the
value in effect at key `to` before the call, `get(to)`, equals `v`, the call
`set(from, to, v)` returns and the container it leaves holds no breakpoint with
key `to`. -/
theorem set_merge_right (m : IntervalMap K V) (hm : Reachable m) (kfrom kto : K) (v : V)
    (hlt : kfrom < kto) (hright : get m kto = some v) :
    ∃ m1, set m kfrom kto v = some m1 ∧ ∀ e ∈ m1.intervals, e.1 ≠ kto := by
  have hs := reachable_sorted m hm
  refine ⟨_, set_eq m kfrom kto v hlt, ?_⟩
  rw [get_eq] at hright
  exact assigned_no_to m.startValue m.intervals kfrom kto v hlt hs (Option.some.inj hright)

theorem set_merge_right_witness :
    set (⟨'A', [(1, 'B'), (5, 'A')]⟩ : IntervalMap Nat Char) 0 1 'B' =
        some ⟨'A', [(0, 'B'), (5, 'A')]⟩ ∧
      ∃ m1, set (⟨'A', [(1, 'B'), (5, 'A')]⟩ : IntervalMap Nat Char) 0 1 'B' = some m1 ∧
        ∀ e ∈ m1.intervals, e.1 ≠ 1 :=
  ⟨by decide, set_merge_right _ reachable_first 0 1 'B' (by decide) (by decide)⟩

end Claims

section Refinement

variable [LinearOrder K]

/-- Claim C10. On a state with strictly key-ordered breakpoints `get(k)`, computed
by `upper_bound(k)` and one step back, returns the value of the reference
definition: the value of the greatest stored breakpoint with key `<= k`, or
`startValue` if no stored breakpoint has a key `<= k`. -/
theorem get_refines_reference (m : IntervalMap K V) (hs : KeySorted m.intervals) (k : K) :
    get m k = some (get_reference m k) := by
  rw [get_eq]
  exact congrArg some (get_reference_eq m.intervals k hs m.startValue).symm

theorem get_refines_reference_witness :
    get (⟨'A', [(1, 'B'), (5, 'A')]⟩ : IntervalMap Nat Char) 4 =
      some (get_reference (⟨'A', [(1, 'B'), (5, 'A')]⟩ : IntervalMap Nat Char) 4) :=
  get_refines_reference _ (by simp [KeySorted]) 4

end Refinement

section Construction

variable [LinearOrder K]

/-- Claim C11. The constructed map `IntervalMap(a)` has an empty breakpoint
container and `startValue` `a`, and `get(k)` returns `a` for every key `k`. -/
theorem construct_get (a : V) :
    (new a : IntervalMap K V).intervals = [] ∧ (new a : IntervalMap K V).startValue = a ∧
      ∀ k : K, get (new a : IntervalMap K V) k = some a := by
  refine ⟨rfl, rfl, ?_⟩
  intro k
  simp [get, new, upper_bound]

end Construction

section Behaviour

variable [LinearOrder K] [DecidableEq V]

/-- Claim C12. Right boundary rule: on a reachable state with `from < to`, when
the value `w` in effect at `to` before the call differs from `v`, the call
`set(from, to, v)` returns and the container it leaves holds the breakpoint
`(to, w)`; a breakpoint stored at `to` before the call is still stored. -/
theorem set_right_boundary (m : IntervalMap K V) (hm : Reachable m) (kfrom kto : K) (v w : V)
    (hlt : kfrom < kto) (hw : get m kto = some w) (hne : w ≠ v) :
    ∃ m1, set m kfrom kto v = some m1 ∧ (kto, w) ∈ m1.intervals ∧
      ∀ e ∈ m.intervals, e.1 = kto → e ∈ m1.intervals := by
  have hs := reachable_sorted m hm
  rw [get_eq] at hw
  have hv := Option.some.inj hw
  have hmem := assigned_mem_to m.startValue m.intervals kfrom kto v w hlt hs hv hne
  refine ⟨_, set_eq m kfrom kto v hlt, hmem, ?_⟩
  intro e he hk
  have h2 := valueAt_of_mem m.intervals e hs m.startValue he
  rw [hk, hv] at h2
  have : e = (kto, w) := Prod.ext hk h2.symm
  rw [this]
  exact hmem

theorem set_right_boundary_witness :
    set (⟨'A', [(1, 'B'), (5, 'A')]⟩ : IntervalMap Nat Char) 2 3 'C' =
        some ⟨'A', [(1, 'B'), (2, 'C'), (3, 'B'), (5, 'A')]⟩ ∧
      ∃ m1, set (⟨'A', [(1, 'B'), (5, 'A')]⟩ : IntervalMap Nat Char) 2 3 'C' = some m1 ∧
        (3, 'B') ∈ m1.intervals ∧
        ∀ e ∈ [((1 : Nat), 'B'), (5, 'A')], e.1 = 3 → e ∈ m1.intervals :=
  ⟨by decide, set_right_boundary _ reachable_first 2 3 'C' 'B' (by decide) (by decide)
    (by decide)⟩

/-- Claim C13. Left boundary rule: on a reachable state with `from < to`, when
the value in effect immediately left of `from` differs from `v`, the call
`set(from, to, v)` returns and the container it leaves holds exactly one
breakpoint with key `from`, and its value is `v`. -/
theorem set_left_boundary (m : IntervalMap K V) (hm : Reachable m) (kfrom kto : K) (v : V)
    (hlt : kfrom < kto) (hleft : valueLeftOf m kfrom ≠ v) :
    ∃ m1, set m kfrom kto v = some m1 ∧
      m1.intervals.filter (fun e => decide (e.1 = kfrom)) = [(kfrom, v)] := by
  have hs := reachable_sorted m hm
  refine ⟨_, set_eq m kfrom kto v hlt, ?_⟩
  have h1 : ¬ lastVal m.startValue (below kfrom m.intervals) = v := by
    rw [← valueLeftOf_eq m.intervals kfrom hs m.startValue]
    exact hleft
  exact assigned_filter_from m.startValue m.intervals kfrom kto v hlt hs h1

theorem set_left_boundary_witness :
    set (⟨'A', [(1, 'B'), (5, 'A')]⟩ : IntervalMap Nat Char) 1 3 'C' =
        some ⟨'A', [(1, 'C'), (3, 'B'), (5, 'A')]⟩ ∧
      ∃ m1, set (⟨'A', [(1, 'B'), (5, 'A')]⟩ : IntervalMap Nat Char) 1 3 'C' = some m1 ∧
        m1.intervals.filter (fun e => decide (e.1 = 1)) = [(1, 'C')] :=
  ⟨by decide, set_left_boundary _ reachable_first 1 3 'C' (by decide) (by decide)⟩

/-- Claim C14. On a reachable state with `from < to` the call `set(from, to, v)`
returns and the container it leaves holds no breakpoint whose key `k`
satisfies `from < k < to`. -/
theorem set_clears_inside (m : IntervalMap K V) (hm : Reachable m) (kfrom kto : K) (v : V)
    (hlt : kfrom < kto) :
    ∃ m1, set m kfrom kto v = some m1 ∧ ∀ e ∈ m1.intervals, ¬ (kfrom < e.1 ∧ e.1 < kto) :=
  ⟨_, set_eq m kfrom kto v hlt,
    assigned_no_inside m.startValue m.intervals kfrom kto v (reachable_sorted m hm)⟩

theorem set_clears_inside_witness :
    set (⟨'A', [(1, 'B'), (5, 'A')]⟩ : IntervalMap Nat Char) 0 7 'C' =
        some ⟨'A', [(0, 'C'), (7, 'A')]⟩ ∧
      ∃ m1, set (⟨'A', [(1, 'B'), (5, 'A')]⟩ : IntervalMap Nat Char) 0 7 'C' = some m1 ∧
        ∀ e ∈ m1.intervals, ¬ (0 < e.1 ∧ e.1 < 7) :=
  ⟨by decide, set_clears_inside _ reachable_first 0 7 'C' (by decide)⟩

/-- Claim C15. Split of a single run: on a reachable state with `from < to`,
when no stored breakpoint has a key `k` with `from <= k <= to` and the value
`w` in effect at `from` differs from `v`, the call `set(from, to, v)` returns
and the container it leaves is the old container with the two entries
`(from, v)` and `(to, w)` put between the entries below `from` and the entries
above `to`; nothing else is added, removed or changed. -/
theorem set_split_run (m : IntervalMap K V) (hm : Reachable m) (kfrom kto : K) (v w : V)
    (hlt : kfrom < kto) (hno : ∀ e ∈ m.intervals, ¬ (kfrom ≤ e.1 ∧ e.1 ≤ kto))
    (hw : get m kfrom = some w) (hne : w ≠ v) :
    ∃ m1 L R, set m kfrom kto v = some m1 ∧ m.intervals = L ++ R ∧
      m1.intervals = L ++ (kfrom, v) :: (kto, w) :: R ∧
      (∀ a ∈ L, a.1 < kfrom) ∧ (∀ a ∈ R, kto < a.1) := by
  have hs := reachable_sorted m hm
  rw [get_eq] at hw
  obtain ⟨h1, h2⟩ := assigned_split_run m.startValue m.intervals kfrom kto v w hlt hs hno
    (Option.some.inj hw) hne
  exact ⟨_, below kfrom m.intervals, notBelow kfrom m.intervals, set_eq m kfrom kto v hlt,
    (below_append_notBelow kfrom m.intervals).symm, h1, below_lt kfrom m.intervals, h2⟩

theorem set_split_run_witness :
    (∃ m1 L R, set (new 'A' : IntervalMap Nat Char) 1 5 'B' = some m1 ∧
      (new 'A' : IntervalMap Nat Char).intervals = L ++ R ∧
      m1.intervals = L ++ (1, 'B') :: (5, 'A') :: R ∧
      (∀ a ∈ L, a.1 < 1) ∧ (∀ a ∈ R, 5 < a.1)) ∧
    (∃ m1 L R, set (⟨'A', [(1, 'B'), (10, 'A')]⟩ : IntervalMap Nat Char) 3 5 'A' = some m1 ∧
      [((1 : Nat), 'B'), (10, 'A')] = L ++ R ∧
      m1.intervals = L ++ (3, 'A') :: (5, 'B') :: R ∧
      (∀ a ∈ L, a.1 < 3) ∧ (∀ a ∈ R, 5 < a.1)) :=
  ⟨set_split_run _ reachable_new 1 5 'B' 'A' (by decide) (by simp [new]) (by decide)
      (by decide),
    set_split_run _ reachable_long 3 5 'A' 'B' (by decide) (by decide) (by decide)
      (by decide)⟩

/-- Claim C16. On a reachable state `set` and `get` have no failure path: every
iterator step and dereference they perform is on a valid position, so neither
returns `none`, for all arguments. -/
theorem set_get_defined (m : IntervalMap K V) (_hm : Reachable m) (kfrom kto k : K) (v : V) :
    (∃ m1, set m kfrom kto v = some m1) ∧ ∃ x, get m k = some x :=
  ⟨⟨_, set_cases m kfrom kto v⟩, ⟨_, get_eq m k⟩⟩

theorem set_get_defined_witness :
    (∃ m1, set (⟨'A', [(1, 'B'), (5, 'A')]⟩ : IntervalMap Nat Char) 0 3 'C' = some m1) ∧
      ∃ x, get (⟨'A', [(1, 'B'), (5, 'A')]⟩ : IntervalMap Nat Char) 2 = some x :=
  set_get_defined _ reachable_first 0 3 2 'C'

/-- Claim C17. Frame: on a reachable state `set(from, to, v)` returns, leaves
`startValue` unchanged, and leaves the stored breakpoints outside the closed
range `[from, to]` unchanged: an entry with key `k < from` or `to < k` is
stored after the call if and only if it was stored before. -/
theorem set_frame (m : IntervalMap K V) (hm : Reachable m) (kfrom kto : K) (v : V) :
    ∃ m1, set m kfrom kto v = some m1 ∧ m1.startValue = m.startValue ∧
      ∀ e : K × V, (e.1 < kfrom ∨ kto < e.1) → (e ∈ m1.intervals ↔ e ∈ m.intervals) := by
  have hs := reachable_sorted m hm
  by_cases hlt : kfrom < kto
  · exact ⟨_, set_eq m kfrom kto v hlt, rfl,
      fun e he => assigned_frame m.startValue m.intervals kfrom kto v hlt hs e he⟩
  · exact ⟨m, set_of_not_lt m kfrom kto v hlt, rfl, fun _ _ => Iff.rfl⟩

theorem set_frame_witness :
    ∃ m1, set (⟨'A', [(1, 'B'), (5, 'A')]⟩ : IntervalMap Nat Char) 2 3 'C' = some m1 ∧
      m1.startValue = 'A' ∧
      ∀ e : Nat × Char, (e.1 < 2 ∨ 3 < e.1) →
        (e ∈ m1.intervals ↔ e ∈ [((1 : Nat), 'B'), (5, 'A')]) :=
  set_frame _ reachable_first 2 3 'C'

/-- Claim C18. Tail invariant: in a reachable state whose breakpoint container
is non-empty the last breakpoint carries `startValue`, `get(k)` returns
`startValue` for every key `k` at or beyond the greatest breakpoint key, and
the container holds at least two breakpoints. -/
theorem tail_invariant (m : IntervalMap K V) (hm : Reachable m) (hne : m.intervals ≠ []) :
    (∀ e, m.intervals.getLast? = some e → e.2 = m.startValue) ∧
      (∀ k, (∀ e ∈ m.intervals, e.1 ≤ k) → get m k = some m.startValue) ∧
      2 ≤ m.intervals.length := by
  have ht := reachable_tail m hm
  refine ⟨?_, ?_, two_le_length m.startValue m.intervals (reachable_canonical m hm) ht hne⟩
  · intro e he
    rw [← lastVal_getLast? m.intervals m.startValue e he]
    exact ht
  · intro k hk
    rw [get_eq, valueAt_beyond m.startValue m.intervals k hk, ht]

theorem tail_invariant_witness :
    (∀ e, [((1 : Nat), 'B'), (5, 'A')].getLast? = some e → e.2 = 'A') ∧
      (∀ k, (∀ e ∈ [((1 : Nat), 'B'), (5, 'A')], e.1 ≤ k) →
        get (⟨'A', [(1, 'B'), (5, 'A')]⟩ : IntervalMap Nat Char) k = some 'A') ∧
      2 ≤ [((1 : Nat), 'B'), (5, 'A')].length :=
  tail_invariant _ reachable_first (by decide)

/-- Claim C19. Bounded growth: on a reachable state `set(from, to, v)` returns
and the number of stored breakpoints after the call is at most the number
before the call plus 2. -/
theorem set_growth (m : IntervalMap K V) (_hm : Reachable m) (kfrom kto : K) (v : V) :
    ∃ m1, set m kfrom kto v = some m1 ∧ m1.intervals.length ≤ m.intervals.length + 2 := by
  by_cases hlt : kfrom < kto
  · exact ⟨_, set_eq m kfrom kto v hlt,
      length_assigned_le m.startValue m.intervals kfrom kto v⟩
  · exact ⟨m, set_of_not_lt m kfrom kto v hlt, Nat.le_add_right _ _⟩

theorem set_growth_witness :
    ∃ m1, set (⟨'A', [(1, 'B'), (5, 'A')]⟩ : IntervalMap Nat Char) 2 3 'C' = some m1 ∧
      m1.intervals.length ≤ [((1 : Nat), 'B'), (5, 'A')].length + 2 :=
  set_growth _ reachable_first 2 3 'C'

/-- Claim C20. Reset by assignment of the start value: on a reachable state
with a non-empty container, when `from < to`, `from` is at most the smallest
breakpoint key and `to` is at least the greatest, the call
`set(from, to, startValue)` returns and leaves the breakpoint container
empty. -/
theorem set_reset (m : IntervalMap K V) (hm : Reachable m) (_hne : m.intervals ≠ [])
    (kfrom kto : K) (hlt : kfrom < kto)
    (hall : ∀ e ∈ m.intervals, kfrom ≤ e.1 ∧ e.1 ≤ kto) :
    ∃ m1, set m kfrom kto m.startValue = some m1 ∧ m1.intervals = [] :=
  ⟨_, set_eq m kfrom kto m.startValue hlt,
    assigned_reset m.startValue m.intervals kfrom kto (reachable_sorted m hm) hall
      (reachable_tail m hm)⟩

theorem set_reset_witness :
    set (⟨'A', [(1, 'B'), (5, 'A')]⟩ : IntervalMap Nat Char) 1 5 'A' = some ⟨'A', []⟩ ∧
      ∃ m1, set (⟨'A', [(1, 'B'), (5, 'A')]⟩ : IntervalMap Nat Char) 1 5 'A' = some m1 ∧
        m1.intervals = [] :=
  ⟨by decide, set_reset _ reachable_first (by decide) 1 5 (by decide) (by decide)⟩

end Behaviour

end IntervalMap
